import Mathlib

/-!
Verification of the two Netlify serverless handlers of the estimator
repository: `netlify/functions/ai-pricing.js` and
`netlify/functions/parse-invoice.js`.

Strings of the JavaScript source are modelled as `List Char` (JavaScript
strings restricted to Unicode scalar values; lone UTF-16 surrogates are out
of the modelled domain).  Platform builtins used by the source
(`JSON.parse`, `JSON.stringify`, `String.prototype.trim`,
`String.prototype.match` on the one concrete regular expression the source
uses, `String.prototype.indexOf`, `String.prototype.replace`) are embedded
by their specified ECMAScript semantics.  The upstream `fetch` call is an
oracle parameter of the handler functions.

Inside string literals of this file a left brace is written `\x7b`, a right
brace `\x7d`, a backtick `\x60` and an apostrophe `\x27`.
-/

/-! ## JavaScript string helpers -/

/-- Whitespace for `String.prototype.trim` (ECMAScript WhiteSpace and
LineTerminator; the common code points). -/
def isJsWs (c : Char) : Bool :=
  c = ' ' || c = '\t' || c = '\n' || c = '\r' || c = '\x0b' || c = '\x0c' ||
  c = '\u00A0' || c = '\uFEFF'

/-- Leading-whitespace strip of `trim`. -/
def trimLeft (s : List Char) : List Char := s.dropWhile isJsWs

/-- Trailing-whitespace strip of `trim`. -/
def trimRight (s : List Char) : List Char := (s.reverse.dropWhile isJsWs).reverse

/-- Embedding of `String.prototype.trim`. -/
def jsTrim (s : List Char) : List Char := trimLeft (trimRight s)

/-- First index at which `pat` occurs in `s`: embedding of
`String.prototype.indexOf` (with `none` for `-1`). -/
def listIndexOf? (pat : List Char) : List Char → Option Nat
  | [] => if pat = [] then some 0 else none
  | c :: cs =>
    if pat.isPrefixOf (c :: cs) then some 0
    else (listIndexOf? pat cs).map (· + 1)

/-- Does `pat` occur as a contiguous substring of `s`? -/
def containsSub (pat s : List Char) : Bool := (listIndexOf? pat s).isSome

/-! ## The code-fence stripper

`jsonText.replace(/\x60\x60\x60json\n?/g, '').replace(/\x60\x60\x60\n?/g, '')`
from `ai-pricing.js`.  A global replace with an empty replacement scans left
to right, removing each leftmost match and resuming after it. -/

/-- Removes every occurrence of three backticks followed by `json` and an
optional newline (the first `replace` of the source). -/
def stripTagFence : List Char → List Char
  | '\x60' :: '\x60' :: '\x60' :: 'j' :: 's' :: 'o' :: 'n' :: '\n' :: rest =>
    stripTagFence rest
  | '\x60' :: '\x60' :: '\x60' :: 'j' :: 's' :: 'o' :: 'n' :: rest =>
    stripTagFence rest
  | c :: cs => c :: stripTagFence cs
  | [] => []

/-- Removes every occurrence of three backticks followed by an optional
newline (the second `replace` of the source). -/
def stripBtFence : List Char → List Char
  | '\x60' :: '\x60' :: '\x60' :: '\n' :: rest => stripBtFence rest
  | '\x60' :: '\x60' :: '\x60' :: rest => stripBtFence rest
  | c :: cs => c :: stripBtFence cs
  | [] => []

/-- Both replaces in source order. -/
def stripFences (s : List Char) : List Char := stripBtFence (stripTagFence s)

/-! ## The regular expression of the response shaper

`responseText.match(/\x7b[\s\S]*"recommendations"[\s\S]*\x7d/)` matches,
per ECMAScript regular-expression semantics with `[\s\S]` matching every
character and `*` greedy, from the leftmost position `i` holding `\x7b`
such that some occurrence of the quoted key starts at some `j > i` and
some `\x7d` sits at some `k ≥ j + 17`, through the largest such `k`. -/

/-- Quoted key `"recommendations"`: seventeen characters. -/
def recsKey : List Char := '"' :: ("recommendations".data ++ ['"'])

/-- Does some suffix of `u` start with the quoted key, with a closing brace
somewhere at or beyond the seventeen characters of that key occurrence? -/
def suffixHasKeyClose : List Char → Bool
  | [] => false
  | c :: cs =>
    (recsKey.isPrefixOf (c :: cs) && ((c :: cs).drop 17).contains '\x7d') ||
    suffixHasKeyClose cs

/-- Index of the leftmost viable match start in `s`, that is the leftmost
`\x7b` that is followed (strictly later) by the quoted key which is in turn
followed by a closing brace. -/
def matchStartAux : List Char → Option Nat
  | [] => none
  | c :: cs =>
    if c = '\x7b' && suffixHasKeyClose cs then some 0
    else (matchStartAux cs).map (· + 1)

/-- Index of the leftmost occurrence of the quoted key in `u`. -/
def firstKeyIdx : List Char → Option Nat
  | [] => none
  | c :: cs =>
    if recsKey.isPrefixOf (c :: cs) then some 0
    else (firstKeyIdx cs).map (· + 1)

/-- Index of the last occurrence of `c` in `s`. -/
def lastIdxOf (c : Char) : List Char → Option Nat
  | [] => none
  | x :: xs =>
    match lastIdxOf c xs with
    | some i => some (i + 1)
    | none => if x = c then some 0 else none

/-- Start and end index (inclusive) of the regex match in `s`, when the
pattern matches.  The end index is the largest `k` carrying `\x7d` with
some key occurrence at `j > start`, `j + 17 ≤ k`; given the leftmost key
occurrence `j₀` after the start, that is the last `\x7d` at or beyond
`j₀ + 17`. -/
def matchSpan (s : List Char) : Option (Nat × Nat) :=
  match matchStartAux s with
  | none => none
  | some i =>
    let u := s.drop (i + 1)
    match firstKeyIdx u with
    | none => none
    | some j =>
      match lastIdxOf '\x7d' (u.drop (j + 17)) with
      | none => none
      | some k => some (i, i + 1 + j + 17 + k)

/-- The matched string `jsonMatch[0]` of the source, when the regex
matches. -/
def jsonMatch0 (s : List Char) : Option (List Char) :=
  (matchSpan s).map fun p => (s.drop p.1).take (p.2 + 1 - p.1)

/-! ## JSON values

JSON values as produced by `JSON.parse`.  A number keeps its source lexeme
(the shaper never computes with the numeric value, so the lexeme is the
faithful residue of the IEEE-754 double); an object keeps its members in
order, with property lookup taking the last occurrence of a repeated name
as `JSON.parse` does. -/

mutual
inductive JVal where
  | jnull : JVal
  | jbool : Bool → JVal
  | jnum : List Char → JVal
  | jstr : List Char → JVal
  | jarr : JElems → JVal
  | jobj : JMembers → JVal
  deriving DecidableEq
inductive JElems where
  | nil : JElems
  | cons : JVal → JElems → JElems
  deriving DecidableEq
inductive JMembers where
  | nil : JMembers
  | cons : List Char → JVal → JMembers → JMembers
  deriving DecidableEq
end

/-- Property lookup on an object member list: the last binding of the name
wins, as in the object built by `JSON.parse`. -/
def lookupLast (k : List Char) : JMembers → Option JVal
  | .nil => none
  | .cons k' v ms =>
    match lookupLast k ms with
    | some r => some r
    | none => if k' = k then some v else none

/-- Property access `v.name` of the parsed value: an object yields its
property (or `undefined`, here `none`); every other JSON value has no such
own property, so access yields `undefined`. -/
def jsGetField (v : JVal) (k : List Char) : Option JVal :=
  match v with
  | .jobj ms => lookupLast k ms
  | _ => none

/-- Are all digits of a number lexeme zero (ignoring sign and exponent)?
Such a lexeme denotes the number 0. -/
def allZeroDigits : List Char → Bool
  | [] => true
  | 'e' :: _ => true
  | 'E' :: _ => true
  | c :: cs => (c = '0' || c = '.' || c = '-') && allZeroDigits cs

/-- JavaScript truthiness of a JSON value: `null`, `false`, `0` and the
empty string are falsy; every array and object is truthy. -/
def jsTruthy : JVal → Bool
  | .jnull => false
  | .jbool b => b
  | .jnum lex => !(allZeroDigits lex)
  | .jstr s => !(s.isEmpty)
  | .jarr _ => true
  | .jobj _ => true

/-- Truthiness of a possibly-undefined value (`undefined` is falsy). -/
def jsTruthyOpt : Option JVal → Bool
  | none => false
  | some v => jsTruthy v

/-! ## The JSON parser

Embedding of `JSON.parse` (ECMA-404 / ECMA-262 `JSON.parse` grammar): JSON
whitespace is space, tab, line feed and carriage return; numbers reject
leading zeros and bare fraction dots; strings reject raw control
characters and decode the escape sequences.  The recursion is fuelled; the
top entry point supplies fuel exceeding the nesting depth of any input. -/

/-- Whitespace of the JSON grammar (strictly smaller than the `trim`
set). -/
def isJsonWs (c : Char) : Bool :=
  c = ' ' || c = '\t' || c = '\n' || c = '\r'

/-- Drops leading JSON whitespace. -/
def skipJsonWs (s : List Char) : List Char := s.dropWhile isJsonWs

/-- Decimal digit test. -/
def isDigitC (c : Char) : Bool := 48 ≤ c.toNat && c.toNat ≤ 57

/-- Hexadecimal digit test. -/
def isHexDigitC (c : Char) : Bool :=
  isDigitC c || (97 ≤ c.toNat && c.toNat ≤ 102) || (65 ≤ c.toNat && c.toNat ≤ 70)

/-- Value of a hexadecimal digit. -/
def hexVal (c : Char) : Nat :=
  if isDigitC c then c.toNat - 48
  else if 97 ≤ c.toNat && c.toNat ≤ 102 then c.toNat - 97 + 10
  else c.toNat - 65 + 10

/-- Value of a four-digit hexadecimal escape. -/
def hexVal4 (a b c d : Char) : Nat :=
  ((hexVal a * 16 + hexVal b) * 16 + hexVal c) * 16 + hexVal d

/-- Body of a JSON string after the opening quote: the decoded characters
and the rest of the input after the closing quote.  `\uXXXX` escapes
decode code units; a high surrogate must be followed by a `\uXXXX` low
surrogate (the scalar-value restriction of this model), a lone low
surrogate is out of the modelled domain. -/
def parseStringBody : Nat → List Char → Option (List Char × List Char)
  | 0, _ => none
  | _ + 1, [] => none
  | fuel + 1, c :: s =>
    if c = '"' then some ([], s)
    else if c = '\\' then
      match s with
      | [] => none
      | e :: r =>
        if e = '"' then (parseStringBody fuel r).map fun p => ('"' :: p.1, p.2)
        else if e = '\\' then (parseStringBody fuel r).map fun p => ('\\' :: p.1, p.2)
        else if e = '/' then (parseStringBody fuel r).map fun p => ('/' :: p.1, p.2)
        else if e = 'b' then (parseStringBody fuel r).map fun p => ('\x08' :: p.1, p.2)
        else if e = 'f' then (parseStringBody fuel r).map fun p => ('\x0c' :: p.1, p.2)
        else if e = 'n' then (parseStringBody fuel r).map fun p => ('\n' :: p.1, p.2)
        else if e = 'r' then (parseStringBody fuel r).map fun p => ('\r' :: p.1, p.2)
        else if e = 't' then (parseStringBody fuel r).map fun p => ('\t' :: p.1, p.2)
        else if e = 'u' then
          match r with
          | a :: b :: c2 :: d :: r2 =>
            if isHexDigitC a && isHexDigitC b && isHexDigitC c2 && isHexDigitC d then
              let n := hexVal4 a b c2 d
              if n < 0xd800 ∨ 0xe000 ≤ n then
                (parseStringBody fuel r2).map fun p => (Char.ofNat n :: p.1, p.2)
              else if n < 0xdc00 then
                match r2 with
                | '\\' :: 'u' :: a2 :: b2 :: c3 :: d2 :: r3 =>
                  if isHexDigitC a2 && isHexDigitC b2 && isHexDigitC c3 && isHexDigitC d2 then
                    let m := hexVal4 a2 b2 c3 d2
                    if 0xdc00 ≤ m ∧ m < 0xe000 then
                      (parseStringBody fuel r3).map fun p =>
                        (Char.ofNat (0x10000 + (n - 0xd800) * 0x400 + (m - 0xdc00)) :: p.1, p.2)
                    else none
                  else none
                | _ => none
              else none
            else none
          | _ => none
        else none
    else if c.toNat < 0x20 then none
    else (parseStringBody fuel s).map fun p => (c :: p.1, p.2)

/-- Integer part of a number: `0`, or a nonzero digit followed by
digits. -/
def lexInt : List Char → Option (List Char × List Char)
  | [] => none
  | c :: r =>
    if c = '0' then some (['0'], r)
    else if isDigitC c then
      let p := r.span isDigitC
      some (c :: p.1, p.2)
    else none

/-- Optional fraction part: a dot followed by at least one digit; a dot
not followed by a digit is left unconsumed (the number token ends before
it, as in the JSON grammar\x27s maximal munch). -/
def lexFrac : List Char → List Char × List Char
  | [] => ([], [])
  | c :: r =>
    if c = '.' then
      let p := r.span isDigitC
      if p.1 = [] then ([], c :: r) else ('.' :: p.1, p.2)
    else ([], c :: r)

/-- Rest of an exponent after the letter `c`: an optional sign and at
least one digit; anything less leaves the letter unconsumed. -/
def lexExpAfterE (c : Char) : List Char → List Char × List Char
  | [] => ([], [c])
  | d :: r1 =>
    if d = '+' || d = '-' then
      let p := r1.span isDigitC
      if p.1 = [] then ([], c :: d :: r1) else (c :: d :: p.1, p.2)
    else
      let p := (d :: r1).span isDigitC
      if p.1 = [] then ([], c :: d :: r1) else (c :: p.1, p.2)

/-- Optional exponent part: `e`/`E`, optional sign, at least one digit;
anything less is left unconsumed. -/
def lexExp : List Char → List Char × List Char
  | [] => ([], [])
  | c :: r =>
    if c = 'e' || c = 'E' then lexExpAfterE c r
    else ([], c :: r)

/-- A complete number token: optional minus, integer part, optional
fraction, optional exponent. -/
def lexNumber (s : List Char) : Option (List Char × List Char) :=
  match s with
  | [] => none
  | c :: r =>
    if c = '-' then
      (lexInt r).map fun p =>
        let f := lexFrac p.2
        let x := lexExp f.2
        ('-' :: p.1 ++ f.1 ++ x.1, x.2)
    else
      (lexInt (c :: r)).map fun p =>
        let f := lexFrac p.2
        let x := lexExp f.2
        (p.1 ++ f.1 ++ x.1, x.2)

mutual
/-- A JSON value at the head of `s` (no leading whitespace), and the rest
of the input.  Dispatch is on the head character, per the JSON grammar. -/
def parseVal : Nat → List Char → Option (JVal × List Char)
  | 0, _ => none
  | Nat.succ _, [] => none
  | Nat.succ fuel, c :: s =>
    if c = 'n' then
      match s with
      | 'u' :: 'l' :: 'l' :: r => some (.jnull, r)
      | _ => none
    else if c = 't' then
      match s with
      | 'r' :: 'u' :: 'e' :: r => some (.jbool true, r)
      | _ => none
    else if c = 'f' then
      match s with
      | 'a' :: 'l' :: 's' :: 'e' :: r => some (.jbool false, r)
      | _ => none
    else if c = '"' then
      (parseStringBody (s.length + 1) s).map fun p => (.jstr p.1, p.2)
    else if c = '[' then
      match skipJsonWs s with
      | ']' :: rest => some (.jarr .nil, rest)
      | r2 => (parseElems fuel r2).map fun p => (.jarr p.1, p.2)
    else if c = '\x7b' then
      match skipJsonWs s with
      | '\x7d' :: rest => some (.jobj .nil, rest)
      | r2 => (parseMembers fuel r2).map fun p => (.jobj p.1, p.2)
    else
      (lexNumber (c :: s)).map fun p => (.jnum p.1, p.2)
/-- One or more comma-separated array elements followed by `]`. -/
def parseElems : Nat → List Char → Option (JElems × List Char)
  | 0, _ => none
  | Nat.succ fuel, s =>
    match parseVal fuel s with
    | none => none
    | some (v, r) =>
      match skipJsonWs r with
      | ',' :: r2 =>
        match parseElems fuel (skipJsonWs r2) with
        | some (es, r3) => some (.cons v es, r3)
        | none => none
      | ']' :: r2 => some (.cons v .nil, r2)
      | _ => none
/-- One or more comma-separated object members followed by `\x7d`. -/
def parseMembers : Nat → List Char → Option (JMembers × List Char)
  | 0, _ => none
  | Nat.succ fuel, s =>
    match s with
    | '"' :: r =>
      match parseStringBody (r.length + 1) r with
      | none => none
      | some (k, r1) =>
        match skipJsonWs r1 with
        | ':' :: r2 =>
          match parseVal fuel (skipJsonWs r2) with
          | none => none
          | some (v, r3) =>
            match skipJsonWs r3 with
            | ',' :: r4 =>
              match parseMembers fuel (skipJsonWs r4) with
              | some (ms, r5) => some (.cons k v ms, r5)
              | none => none
            | '\x7d' :: r4 => some (.cons k v .nil, r4)
            | _ => none
        | _ => none
    | _ => none
end

/-- Embedding of `JSON.parse`: skip whitespace, read one value, require
only whitespace after it.  `none` is the thrown `SyntaxError`. -/
def jsonParse (s : List Char) : Option JVal :=
  match parseVal (s.length + 1) (skipJsonWs s) with
  | some (v, r) => if skipJsonWs r = [] then some v else none
  | none => none

/-! ## The JSON serializer

Embedding of `JSON.stringify` on parsed values (used only to state the
idempotence claim, which re-embeds the shaper's output): strings escape
the quote, the backslash and control characters, numbers emit their
lexeme, arrays and objects emit their parts in order with no added
whitespace. -/

/-- Hexadecimal digit character (lower case, as `JSON.stringify`
emits). -/
def hexDigitChar (n : Nat) : Char :=
  if n < 10 then Char.ofNat (48 + n) else Char.ofNat (87 + n)

/-- Escape of one character inside a serialized string. -/
def escChar (c : Char) : List Char :=
  if c = '"' then '\\' :: ['"']
  else if c = '\\' then '\\' :: ['\\']
  else if c = '\x08' then '\\' :: ['b']
  else if c = '\x0c' then '\\' :: ['f']
  else if c = '\n' then '\\' :: ['n']
  else if c = '\r' then '\\' :: ['r']
  else if c = '\t' then '\\' :: ['t']
  else if c.toNat < 0x20 then
    '\\' :: 'u' :: '0' :: '0' :: hexDigitChar (c.toNat / 16) :: [hexDigitChar (c.toNat % 16)]
  else [c]

/-- Serialized form of a string value, quotes included. -/
def serStr (s : List Char) : List Char :=
  '"' :: (s.flatMap escChar ++ ['"'])

mutual
/-- Serialized form of a JSON value. -/
def serialize : JVal → List Char
  | .jnull => "null".data
  | .jbool true => "true".data
  | .jbool false => "false".data
  | .jnum lex => lex
  | .jstr s => serStr s
  | .jarr .nil => '[' :: [']']
  | .jarr es => '[' :: (serElems es ++ [']'])
  | .jobj .nil => '\x7b' :: ['\x7d']
  | .jobj ms => '\x7b' :: (serMembers ms ++ ['\x7d'])
/-- Comma-separated serialized elements. -/
def serElems : JElems → List Char
  | .nil => []
  | .cons v .nil => serialize v
  | .cons v es => serialize v ++ ',' :: serElems es
/-- Comma-separated serialized members. -/
def serMembers : JMembers → List Char
  | .nil => []
  | .cons k v .nil => serStr k ++ ':' :: serialize v
  | .cons k v ms => serStr k ++ ':' :: serialize v ++ ',' :: serMembers ms
end

mutual
/-- A value is well formed when every number lexeme in it is a complete
number token (which re-lexes to itself).  `JSON.parse` only produces well
formed values. -/
def wfVal : JVal → Bool
  | .jnum lex => lexNumber lex = some (lex, [])
  | .jarr es => wfElems es
  | .jobj ms => wfMembers ms
  | _ => true
/-- Well-formedness of every element. -/
def wfElems : JElems → Bool
  | .nil => true
  | .cons v es => wfVal v && wfElems es
/-- Well-formedness of every member value. -/
def wfMembers : JMembers → Bool
  | .nil => true
  | .cons _ v ms => wfVal v && wfMembers ms
end

mutual
/-- Node count of a value, a fuel bound for re-parsing it. -/
def jsizeVal : JVal → Nat
  | .jarr es => 1 + jsizeElems es
  | .jobj ms => 1 + jsizeMembers ms
  | _ => 1
/-- Node count of an element list. -/
def jsizeElems : JElems → Nat
  | .nil => 0
  | .cons v es => 1 + jsizeVal v + jsizeElems es
/-- Node count of a member list. -/
def jsizeMembers : JMembers → Nat
  | .nil => 0
  | .cons _ v ms => 1 + jsizeVal v + jsizeMembers ms
end

/-! ## The response shaper

Lines 164 to 197 of `ai-pricing.js`: trim the upstream text, look for the
JSON-looking span, split off the explanation, strip code fences, parse,
and fall back to the whole text on parse failure. -/

/-- Result of the response shaping stage, the fields of the 200 body of
the pricing handler.  `recommendations` is `none` for the JavaScript
`null` it is initialized to; `textMessageSummary` starts as the empty
string. -/
structure Shaped where
  explanation : List Char
  recommendations : Option JVal
  textMessageSummary : JVal
  deriving DecidableEq

/-- The response shaper.  `raw` is `data.content[0].text`; the source
trims it, matches the regular expression, and on a match takes everything
before the first occurrence of the matched string (via `indexOf`) as the
explanation, then parses the fence-stripped span, falling back to the
whole trimmed text as explanation when parsing fails.  On success
`recommendations` is `parsed.recommendations || []` and
`textMessageSummary` is `parsed.textMessageSummary || ''`. -/
def shapeResponse (raw : List Char) : Shaped :=
  let responseText := jsTrim raw
  match jsonMatch0 responseText with
  | none => ⟨responseText, none, .jstr []⟩
  | some m =>
    let jsonStartIndex := (listIndexOf? m responseText).getD 0
    let explanation := jsTrim (responseText.take jsonStartIndex)
    let jsonText := jsTrim (stripFences m)
    match jsonParse jsonText with
    | some parsed =>
      let recs : JVal :=
        match jsGetField parsed ("recommendations".data) with
        | some v => if jsTruthy v then v else .jarr .nil
        | none => .jarr .nil
      let tms : JVal :=
        match jsGetField parsed ("textMessageSummary".data) with
        | some v => if jsTruthy v then v else .jstr []
        | none => .jstr []
      ⟨explanation, some recs, tms⟩
    | none => ⟨responseText, none, .jstr []⟩

/-! ## Number rendering

`toFixed` and template interpolation of numbers.  The source applies these
to IEEE-754 doubles; they are modelled here on the exact scaled decimal
denoted by the number lexeme, which agrees with the source for exactly
representable decimal values (floating-point representation artifacts are
out of the scope of this embedding; no claim depends on a rendered
number). -/

/-- Decimal value of a digit string. -/
def digitsToNat (ds : List Char) : Nat :=
  ds.foldl (fun a c => a * 10 + (c.toNat - '0'.toNat)) 0

/-- An exact decimal: the value `num * 10 ^ tenExp`. -/
structure DecNum where
  num : Int
  tenExp : Int
  deriving DecidableEq

/-- Signed exponent denoted by an exponent suffix. -/
def expOf : List Char → Int
  | c :: r =>
    if c = 'e' || c = 'E' then
      match r with
      | '-' :: r2 => -(digitsToNat (r2.span isDigitC).1 : Int)
      | '+' :: r2 => (digitsToNat (r2.span isDigitC).1 : Int)
      | _ => (digitsToNat (r.span isDigitC).1 : Int)
    else 0
  | [] => 0

/-- Exact decimal denoted by an unsigned number lexeme. -/
def lexToDecPos (r : List Char) : DecNum :=
  let ip := r.span isDigitC
  match ip.2 with
  | '.' :: r2 =>
    let fp := r2.span isDigitC
    ⟨(digitsToNat (ip.1 ++ fp.1) : Int), expOf fp.2 - (fp.1.length : Int)⟩
  | _ => ⟨(digitsToNat ip.1 : Int), expOf ip.2⟩

/-- Exact decimal denoted by a number lexeme. -/
def lexToDec : List Char → DecNum
  | '-' :: r => let d := lexToDecPos r; ⟨-d.num, d.tenExp⟩
  | r => lexToDecPos r

/-- `N * 10 ^ e` rounded half up to a natural (`N` a natural). -/
def roundScaled (n : Nat) : Int → Nat
  | Int.ofNat k => n * 10 ^ k
  | Int.negSucc k => (2 * n + 10 ^ (k + 1)) / (2 * 10 ^ (k + 1))

/-- Two-digit zero-padded rendering of a natural below 100. -/
def padTwo (n : Nat) : List Char :=
  if n < 10 then '0' :: Nat.toDigits 10 n else Nat.toDigits 10 n

/-- Model of `Number.prototype.toFixed(2)` on an exact decimal. -/
def toFixed2 (v : DecNum) : List Char :=
  let n := roundScaled v.num.natAbs (v.tenExp + 2)
  (if v.num < 0 then ['-'] else []) ++
  Nat.toDigits 10 (n / 100) ++ '.' :: padTwo (n % 100)

/-- Model of `Number.prototype.toFixed(1)` on an exact decimal. -/
def toFixed1 (v : DecNum) : List Char :=
  let n := roundScaled v.num.natAbs (v.tenExp + 1)
  (if v.num < 0 then ['-'] else []) ++
  Nat.toDigits 10 (n / 10) ++ '.' :: Nat.toDigits 10 (n % 10)

/-- Removes up to `k` trailing zeros of `n`, returning the reduced number
and the count of digits still to sit after the decimal point. -/
def stripZeros (n : Nat) : Nat → Nat × Nat
  | 0 => (n, 0)
  | Nat.succ k =>
    if n % 10 = 0 ∧ 0 < n then stripZeros (n / 10) k else (n, Nat.succ k)

/-- Digits of `m` with a decimal point `k` places from the right. -/
def withPoint (m k : Nat) : List Char :=
  if k = 0 then Nat.toDigits 10 m
  else
    let ds := Nat.toDigits 10 m
    if ds.length ≤ k then '0' :: '.' :: (List.replicate (k - ds.length) '0' ++ ds)
    else ds.take (ds.length - k) ++ '.' :: ds.drop (ds.length - k)

/-- Model of JavaScript number-to-string conversion for exact-decimal
values in the non-exponential range. -/
def decToString (v : DecNum) : List Char :=
  let m := v.num.natAbs
  if m = 0 then ['0']
  else
    (if v.num < 0 then ['-'] else []) ++
    match v.tenExp with
    | Int.ofNat k => Nat.toDigits 10 (m * 10 ^ k)
    | Int.negSucc k =>
      let p := stripZeros m (k + 1)
      withPoint p.1 p.2

/-! ## Template interpolation of JSON values

Conversion of a JavaScript value inside a template literal: `undefined`
renders as `undefined`, `null` as `null`, an array joins its converted
elements with commas with `null` elements empty, an object renders as
`[object Object]`. -/

mutual
/-- Template-literal string conversion of a JSON value. -/
def jsToString : JVal → List Char
  | .jnull => "null".data
  | .jbool true => "true".data
  | .jbool false => "false".data
  | .jnum lex => decToString (lexToDec lex)
  | .jstr s => s
  | .jarr es => arrToString es
  | .jobj _ => "[object Object]".data
/-- `Array.prototype.toString`: elements joined with commas, `null`
rendered empty. -/
def arrToString : JElems → List Char
  | .nil => []
  | .cons .jnull .nil => []
  | .cons v .nil => jsToString v
  | .cons .jnull es => ',' :: arrToString es
  | .cons v es => jsToString v ++ ',' :: arrToString es
end

/-- Template interpolation of a possibly-undefined value. -/
def jsTemplate : Option JVal → List Char
  | none => "undefined".data
  | some v => jsToString v

/-! ## The pricing prompt builder

Lines 31 to 106 of `ai-pricing.js`.  `none` marks a thrown `TypeError`
(a `.map` on a non-array, or `.toFixed` on a non-number), which the
enclosing `try` turns into a 500. -/

/-- One line of the items list of an option. -/
def itemLine (item : JVal) : List Char :=
  "  - ".data ++ jsTemplate (jsGetField item ("description".data)) ++
  " (".data ++ jsTemplate (jsGetField item ("section".data)) ++
  "): ".data ++ jsTemplate (jsGetField item ("quantity".data)) ++
  " x $".data ++ jsTemplate (jsGetField item ("unitPrice".data))

/-- The item lines joined with newlines. -/
def itemLines : JElems → List Char
  | .nil => []
  | .cons it .nil => itemLine it
  | .cons it its => itemLine it ++ '\n' :: itemLines its

/-- `opt.k.toFixed(2)`: defined only when the property is a number. -/
def fixed2Field (opt : JVal) (k : List Char) : Option (List Char) :=
  match jsGetField opt k with
  | some (.jnum lex) => some (toFixed2 (lexToDec lex))
  | _ => none

/-- `opt.k.toFixed(1)`: defined only when the property is a number. -/
def fixed1Field (opt : JVal) (k : List Char) : Option (List Char) :=
  match jsGetField opt k with
  | some (.jnum lex) => some (toFixed1 (lexToDec lex))
  | _ => none

/-- The template block of one pricing option. -/
def optBlock (opt : JVal) : Option (List Char) := do
  let items ←
    match jsGetField opt ("items".data) with
    | some (.jarr es) => some es
    | _ => none
  let c1 ← fixed2Field opt ("costExGST".data)
  let c2 ← fixed2Field opt ("currentPriceIncGST".data)
  let c3 ← fixed2Field opt ("currentProfitExGST".data)
  let m1 ← fixed1Field opt ("currentMarkup".data)
  let m2 ← fixed1Field opt ("currentMargin".data)
  let c4 ← fixed2Field opt ("currentMonthly".data)
  some ("\n**".data ++ jsTemplate (jsGetField opt ("name".data)) ++
    "** (ID: ".data ++ jsTemplate (jsGetField opt ("tabId".data)) ++
    ")\n- Cost (Ex GST): $".data ++ c1 ++
    "\n- Current Price (Inc GST): $".data ++ c2 ++
    "\n- Current Profit (Ex GST): $".data ++ c3 ++
    "\n- Current Markup: ".data ++ m1 ++
    "%\n- Current Margin: ".data ++ m2 ++
    "%\n- Payment Term: ".data ++ jsTemplate (jsGetField opt ("paymentTerm".data)) ++
    " months\n- Current Monthly: $".data ++ c4 ++
    "/mo\nItems:\n".data ++ itemLines items)

/-- `options.map(opt => ...).join('\n\n')` over the options array. -/
def optionsSummaryE : JElems → Option (List Char)
  | .nil => some []
  | .cons opt .nil => optBlock opt
  | .cons opt opts => do
    let b ← optBlock opt
    let rest ← optionsSummaryE opts
    some (b ++ '\n' :: '\n' :: rest)

/-! ## Conversation messages -/

/-- A message pushed to the `messages` array: the `role` and `content`
properties read off a history entry (possibly `undefined`), or the strings
of the appended user turn. -/
structure JsMsg where
  role : Option JVal
  content : Option JVal
  deriving DecidableEq

/-- The copied-through history turns, role and content preserved in
order. -/
def histMsgs : JElems → List JsMsg
  | .nil => []
  | .cons m ms =>
    ⟨jsGetField m ("role".data), jsGetField m ("content".data)⟩ :: histMsgs ms

/-- Is the tail of a string numeric literal a well-formed exponent part
(possibly absent)? -/
def strExpOk : List Char → Bool
  | [] => true
  | e :: r =>
    (e = 'e' || e = 'E') &&
    match r with
    | '+' :: ds => !ds.isEmpty && ds.all isDigitC
    | '-' :: ds => !ds.isEmpty && ds.all isDigitC
    | ds => !ds.isEmpty && ds.all isDigitC

/-- Does an unsigned decimal string numeric literal
(`StrUnsignedDecimalLiteral`) denote a value greater than zero?  An
ill-formed literal is `NaN`, which compares false.  The test is on the
exact decimal the literal denotes (double rounding artifacts, such as
exponents driving an underflow to zero, are out of the modelled
domain). -/
def strDecGtZero (r : List Char) : Bool :=
  if r = "Infinity".data then true
  else
    let ip := r.span isDigitC
    match ip.2 with
    | '.' :: r2 =>
      let fp := r2.span isDigitC
      (!ip.1.isEmpty || !fp.1.isEmpty) && strExpOk fp.2 &&
        (ip.1 ++ fp.1).any (· ≠ '0')
    | r1 => !ip.1.isEmpty && strExpOk r1 && ip.1.any (· ≠ '0')

/-- The comparison `ToNumber(s) > 0` for a string `s`
(`StringNumericLiteral`: surrounding whitespace, then an optionally
signed decimal literal, `Infinity`, or an unsigned binary, octal or
hexadecimal integer literal; anything else is `NaN`).  A minus sign makes
the comparison false whether the literal is valid or not. -/
def strGtZero (s : List Char) : Bool :=
  match jsTrim s with
  | [] => false
  | '-' :: _ => false
  | '+' :: r => strDecGtZero r
  | '0' :: 'x' :: ds => !ds.isEmpty && ds.all isHexDigitC && ds.any (· ≠ '0')
  | '0' :: 'X' :: ds => !ds.isEmpty && ds.all isHexDigitC && ds.any (· ≠ '0')
  | '0' :: 'o' :: ds =>
    !ds.isEmpty && ds.all (fun c => 48 ≤ c.toNat && c.toNat ≤ 55) &&
      ds.any (· ≠ '0')
  | '0' :: 'O' :: ds =>
    !ds.isEmpty && ds.all (fun c => 48 ≤ c.toNat && c.toNat ≤ 55) &&
      ds.any (· ≠ '0')
  | '0' :: 'b' :: ds =>
    !ds.isEmpty && ds.all (fun c => c = '0' || c = '1') && ds.any (· ≠ '0')
  | '0' :: 'B' :: ds =>
    !ds.isEmpty && ds.all (fun c => c = '0' || c = '1') && ds.any (· ≠ '0')
  | r => strDecGtZero r

/-- The JavaScript comparison `v > 0` on a parsed JSON value: abstract
relational comparison, `ToPrimitive` with number hint (an array converts
through `Array.prototype.toString`, a plain object to `[object Object]`,
which is `NaN`), then `ToNumber`.  On numbers the test is on the exact
decimal the lexeme denotes. -/
def jsGtZero : JVal → Bool
  | .jnull => false
  | .jbool b => b
  | .jnum ('-' :: _) => false
  | .jnum lex => !allZeroDigits lex
  | .jstr s => strGtZero s
  | .jarr es => strGtZero (arrToString es)
  | .jobj _ => false

/-- Outcome of `conversationHistory && conversationHistory.length > 0`
followed by `forEach`: a falsy value (absent, `null`, `false`, zero, the
empty string), an empty array, a truthy value without a `length` property
(a number, `true`), or an object whose `length` member does not compare
greater than zero, short-circuits to the no-history mode; a non-empty
array is iterated, giving the follow-up mode; a non-empty string, or an
object whose `length` member compares greater than zero, passes the
length test and then throws `TypeError` at `forEach`. -/
inductive HistMode where
  | noHistory : HistMode
  | follow : JElems → HistMode
  | badHistory : HistMode
  deriving DecidableEq

/-- The history decision of lines 53 and 63 of `ai-pricing.js`. -/
def historyMode : Option JVal → HistMode
  | some (.jarr .nil) => .noHistory
  | some (.jarr es) => .follow es
  | some (.jstr []) => .noHistory
  | some (.jstr (_ :: _)) => .badHistory
  | some (.jobj ms) =>
    match lookupLast ("length".data) ms with
    | some v => if jsGtZero v then .badHistory else .noHistory
    | none => .noHistory
  | _ => .noHistory

/-- Fixed text between the user message and the options summary of the
follow-up turn. -/
def followGlue1 : List Char :=
  "\n\nCurrent options data for reference:\n".data

/-- Fixed text after the options summary of the follow-up turn. -/
def followGlue2 : List Char :=
  ("\n\nIf you\x27re adjusting recommendations based on my feedback, " ++
   "respond with the same JSON structure. If you\x27re just discussing " ++
   "strategy, you can respond conversationally without JSON.").data

/-- Content of the appended user turn of a follow-up request (lines 66 to
76). -/
def followUpContent (um : Option JVal) (sum : List Char) : List Char :=
  jsTemplate um ++ followGlue1 ++ sum ++ followGlue2

/-- The instruction block of the initial turn, from the strategy request
through the JSON structure example (everything after the user message in
lines 80 to 106). -/
def initialInstr : List Char :=
  ("\n\nI need your help pricing these options strategically. Tell me:\n" ++
   "1. What prices you suggest for each option and WHY\n" ++
   "2. How the pricing creates anchoring and makes certain options feel like no-brainers\n" ++
   "3. Which option you\x27re trying to steer the client toward and why\n" ++
   "4. How much profit I\x27ll make on each\n\n" ++
   "Be conversational - explain your thinking like you\x27re coaching me on pricing strategy. " ++
   "After your explanation, include a JSON block with the specific numbers.\n\n" ++
   "Respond with your strategic explanation first, then end with a JSON object " ++
   "(no markdown code blocks) with this structure:\n" ++
   "\x7b\n  \"recommendations\": [\n    \x7b\n      \"tabId\": \"tab-1\",\n" ++
   "      \"name\": \"Option Name\",\n      \"costExGST\": 1000.00,\n" ++
   "      \"suggestedPriceIncGST\": 1500.00,\n      \"paymentTerm\": 24,\n" ++
   "      \"reasoning\": \"The anchoring/strategic reason for this price\"\n    \x7d\n  ],\n" ++
   "  \"textMessageSummary\": \"A ready-to-send text message I can copy and send to the client. " ++
   "Present the options in order from highest to lowest price (anchor high first). " ++
   "Make the target option sound like incredible value. " ++
   "Keep it professional but friendly, not salesy.\"\n\x7d").data

/-- Content of the single user turn of an initial request (lines 80 to
106). -/
def initialContent (pn cn : Option JVal) (sum : List Char) (um : Option JVal) :
    List Char :=
  "Project: ".data ++ jsTemplate pn ++
  "\nClient: ".data ++ jsTemplate cn ++
  "\n\nMy Pricing Options:\n".data ++ sum ++
  "\n\nContext from me:\n".data ++ jsTemplate um ++
  initialInstr

/-- The constructed `messages` array (lines 49 to 107): copied history
then one appended user turn, follow-up or initial. -/
def buildMessages (um pn cn ch : Option JVal) (sum : List Char) : List JsMsg :=
  match historyMode ch with
  | .follow es =>
    histMsgs es ++ [⟨some (.jstr ("user".data)), some (.jstr (followUpContent um sum))⟩]
  | _ =>
    [⟨some (.jstr ("user".data)), some (.jstr (initialContent pn cn sum um))⟩]

/-! ## The handlers

Each handler is a function of the request method and raw body, the
server environment (for the pricing handler), and an upstream oracle
standing for the `fetch` of the external API.  The CORS headers of the
success responses are configuration data outside the model. -/

/-- Outcome of the upstream call: the promise chain threw (network error,
or a reply whose body is not the shape the handler reads), the reply was
not ok (status, and the optional `error.error?.message` of its parsed
body), or the reply was ok with a parsed JSON body. -/
inductive Upstream where
  | throws : List Char → Upstream
  | fails : Nat → Option (List Char) → Upstream
  | succeeds : JVal → Upstream
  deriving DecidableEq

/-- Cause of a caught exception inside the handler `try` block. -/
inductive JsErr where
  | jsonSyntax : JsErr
  | typeErr : JsErr
  | upstreamThrew : List Char → JsErr
  deriving DecidableEq

/-- Body of a handler response. -/
inductive RespBody where
  | errMsg : List Char → RespBody
  | caught : JsErr → RespBody
  | pricingOk : List Char → Option JVal → JVal → RespBody
  | rawOk : JVal → RespBody
  deriving DecidableEq

/-- A handler response: status code and body. -/
structure Resp where
  statusCode : Nat
  body : RespBody
  deriving DecidableEq

/-- The method string both handlers accept. -/
def postMethod : List Char := "POST".data

/-- Truthiness of `process.env.ANTHROPIC_API_KEY`: absent or empty is
falsy. -/
def envTruthy : Option (List Char) → Bool
  | some (_ :: _) => true
  | _ => false

/-- `data.content[0].text` of the parsed upstream body, when that chain of
accesses yields a string; anything else throws in the source (modelled as
`none`). -/
def extractText (data : JVal) : Option (List Char) :=
  match jsGetField data ("content".data) with
  | some (.jarr (.cons c0 _)) =>
    match jsGetField c0 ("text".data) with
    | some (.jstr s) => some s
    | _ => none
  | _ => none

/-- The pricing handler of `netlify/functions/ai-pricing.js`.  `env` is
the server credential, `body` the raw request body, `up` the upstream
oracle applied to the constructed messages. -/
def pricingHandler (env : Option (List Char)) (method body : List Char)
    (up : List JsMsg → Upstream) : Resp :=
  if method ≠ postMethod then ⟨405, .errMsg ("Method not allowed".data)⟩
  else
    match jsonParse body with
    | none => ⟨500, .caught .jsonSyntax⟩
    | some bv =>
      if bv = .jnull then ⟨500, .caught .typeErr⟩
      else
        let userMessage := jsGetField bv ("userMessage".data)
        let options := jsGetField bv ("options".data)
        if !envTruthy env then
          ⟨500, .errMsg ("Server not configured: missing ANTHROPIC_API_KEY.".data)⟩
        else if !jsTruthyOpt userMessage || !jsTruthyOpt options then
          ⟨400, .errMsg ("Missing required fields".data)⟩
        else
          match options with
          | some (.jarr opts) =>
            match optionsSummaryE opts with
            | none => ⟨500, .caught .typeErr⟩
            | some summ =>
              let conversationHistory := jsGetField bv ("conversationHistory".data)
              match historyMode conversationHistory with
              | .badHistory => ⟨500, .caught .typeErr⟩
              | _ =>
                let messages := buildMessages userMessage
                  (jsGetField bv ("projectName".data))
                  (jsGetField bv ("clientName".data)) conversationHistory summ
                match up messages with
                | .throws m => ⟨500, .caught (.upstreamThrew m)⟩
                | .fails st em => ⟨st, .errMsg (em.getD ("API request failed".data))⟩
                | .succeeds data =>
                  match extractText data with
                  | none => ⟨500, .caught .typeErr⟩
                  | some raw =>
                    let sh := shapeResponse raw
                    ⟨200, .pricingOk sh.explanation sh.recommendations sh.textMessageSummary⟩
          | _ => ⟨500, .caught .typeErr⟩

/-- The document-extraction handler of
`netlify/functions/parse-invoice.js`. -/
def parseInvoiceHandler (method body : List Char) (up : Upstream) : Resp :=
  if method ≠ postMethod then ⟨405, .errMsg ("Method not allowed".data)⟩
  else
    match jsonParse body with
    | none => ⟨500, .caught .jsonSyntax⟩
    | some bv =>
      if bv = .jnull then ⟨500, .caught .typeErr⟩
      else
        let apiKey := jsGetField bv ("apiKey".data)
        let pdfBase64 := jsGetField bv ("pdfBase64".data)
        if !jsTruthyOpt apiKey || !jsTruthyOpt pdfBase64 then
          ⟨400, .errMsg ("Missing apiKey or pdfBase64".data)⟩
        else
          match up with
          | .throws m => ⟨500, .caught (.upstreamThrew m)⟩
          | .fails st em => ⟨st, .errMsg (em.getD ("API request failed".data))⟩
          | .succeeds data => ⟨200, .rawOk data⟩

/-! ## Inputs and markers named by the claims -/

/-- Opening sentence of the instruction block that only the initial turn
carries. -/
def instrMarker : List Char :=
  "I need your help pricing these options strategically".data

/-- The example input of the specification: advice prose, a blank line,
then a recommendations object. -/
def c4Text : List Char :=
  ("Here is my advice.\n\n\x7b\"recommendations\":[\x7b\"tabId\":\"tab-1\"," ++
   "\"name\":\"Basic\",\"costExGST\":1000,\"suggestedPriceIncGST\":1500," ++
   "\"paymentTerm\":12,\"reasoning\":\"fair margin\"\x7d]," ++
   "\"textMessageSummary\":\"Hi, here are your options...\"\x7d").data

/-- The one recommendation the example input carries. -/
def c4Rec : JVal :=
  .jobj (.cons ("tabId".data) (.jstr ("tab-1".data))
    (.cons ("name".data) (.jstr ("Basic".data))
    (.cons ("costExGST".data) (.jnum ("1000".data))
    (.cons ("suggestedPriceIncGST".data) (.jnum ("1500".data))
    (.cons ("paymentTerm".data) (.jnum ("12".data))
    (.cons ("reasoning".data) (.jstr ("fair margin".data)) .nil))))))

/-- Re-embedding of a shaper result as the claim of idempotence describes
it: the extracted explanation, a blank line, then the serialized object
holding the recommendations and the summary. -/
def reembedText (e : List Char) (recs tms : JVal) : List Char :=
  e ++ '\n' :: '\n' ::
    serialize (.jobj (.cons ("recommendations".data) recs
      (.cons ("textMessageSummary".data) tms .nil)))

/-- Three backticks: the prefix of both code-fence patterns. -/
def tripleBacktick : List Char := '\x60' :: '\x60' :: '\x60' :: []

/-- A first-run input for the idempotence claim whose recommendation
strings denote backticks through escapes: the serialized output then
carries a literal code fence. -/
def cex5Text : List Char :=
  ("\x7b\"recommendations\":[\"\\u0060\\u0060\\u0060\"],\"textMessageSummary\":\"s\"\x7d").data

/-! ## Derived predicates over the regex embedding -/

/-- A position of `s` where the regex could start: a brace whose strict
suffix holds the quoted key followed in turn by a closing brace. -/
def ViableAt (s : List Char) (i : Nat) : Prop :=
  s[i]? = some '\x7b' ∧ suffixHasKeyClose (s.drop (i + 1)) = true

/-- The quoted key occurs at position `j` of `u`. -/
def KeyAt (u : List Char) (j : Nat) : Prop := recsKey <+: u.drop j

/-- The text contains the pattern of the regular expression: a brace,
strictly later the quoted key, and a closing brace at or beyond the end
of that key occurrence. -/
def HasPattern (s : List Char) : Prop :=
  ∃ i j k, s[i]? = some '\x7b' ∧ i < j ∧ recsKey <+: s.drop j ∧
    j + 17 ≤ k ∧ s[k]? = some '\x7d'

/-- No leading decimal digit. -/
def HeadNotDigit (r : List Char) : Prop :=
  ∀ c t, r = c :: t → isDigitC c = false

/-- The input does not begin with a character that could extend a number
token: no digit, no dot, no exponent letter. -/
def NonNumHead (r : List Char) : Prop :=
  ∀ c t, r = c :: t → isDigitC c = false ∧ c ≠ '.' ∧ c ≠ 'e' ∧ c ≠ 'E'

/-! ## Claim theorems -/

/-- C9: for every request to either handler whose method is not POST, the
response status is 405, whatever the body is (including bodies that do not
parse as JSON; the method test precedes every read of the body). -/
theorem non_post_is_405 (env : Option (List Char)) (method body : List Char)
    (up : List JsMsg → Upstream) (up2 : Upstream) (h : method ≠ postMethod) :
    (pricingHandler env method body up).statusCode = 405 ∧
    (parseInvoiceHandler method body up2).statusCode = 405 := by
  constructor <;> simp [pricingHandler, parseInvoiceHandler, h]

/-- Witness for C9 at the method GET with a body that is not valid
JSON. -/
theorem non_post_is_405_witness :
    ("GET".data ≠ postMethod) ∧
    (pricingHandler none ("GET".data) ("notjson".data) (fun _ => .fails 0 none)).statusCode = 405 ∧
    (parseInvoiceHandler ("GET".data) ("notjson".data) (.fails 0 none)).statusCode = 405 :=
  ⟨by decide, non_post_is_405 none ("GET".data) ("notjson".data)
    (fun _ => .fails 0 none) (.fails 0 none) (by decide)⟩

set_option maxRecDepth 40000 in
/-- C6: with a non-empty conversation history, the constructed message
list is every history turn copied through (role and content read off each
entry, in order) followed by exactly one user turn whose content is the
user message and the options summary joined by fixed glue text, and that
glue omits the instruction block the initial turn carries. -/
theorem followup_messages (um pn cn ch : Option JVal) (es : JElems)
    (sum : List Char) (hch : historyMode ch = .follow es) :
    buildMessages um pn cn ch sum =
      histMsgs es ++ [⟨some (.jstr ("user".data)),
        some (.jstr (jsTemplate um ++ followGlue1 ++ sum ++ followGlue2))⟩] ∧
    containsSub instrMarker followGlue1 = false ∧
    containsSub instrMarker followGlue2 = false ∧
    containsSub instrMarker initialInstr = true := by
  refine ⟨?_, by decide, by decide, by decide⟩
  simp [buildMessages, hch, followUpContent]

/-- Witness for C6 at a one-turn history. -/
theorem followup_messages_witness :
    historyMode (some (.jarr (.cons (.jobj (.cons ("role".data)
        (.jstr ("assistant".data)) (.cons ("content".data) (.jstr ("prior".data)) .nil)))
      .nil))) = .follow (.cons (.jobj (.cons ("role".data)
        (.jstr ("assistant".data)) (.cons ("content".data) (.jstr ("prior".data)) .nil)))
      .nil) ∧
    buildMessages (some (.jstr ("go".data))) none none
      (some (.jarr (.cons (.jobj (.cons ("role".data)
        (.jstr ("assistant".data)) (.cons ("content".data) (.jstr ("prior".data)) .nil)))
      .nil))) ("SUM".data) =
      histMsgs (.cons (.jobj (.cons ("role".data)
        (.jstr ("assistant".data)) (.cons ("content".data) (.jstr ("prior".data)) .nil)))
      .nil) ++ [⟨some (.jstr ("user".data)),
        some (.jstr (jsTemplate (some (.jstr ("go".data))) ++ followGlue1 ++
          "SUM".data ++ followGlue2))⟩] :=
  ⟨rfl, (followup_messages (some (.jstr ("go".data))) none none
    (some (.jarr (.cons (.jobj (.cons ("role".data)
        (.jstr ("assistant".data)) (.cons ("content".data) (.jstr ("prior".data)) .nil)))
      .nil)))
    (.cons (.jobj (.cons ("role".data)
        (.jstr ("assistant".data)) (.cons ("content".data) (.jstr ("prior".data)) .nil)))
      .nil) ("SUM".data) rfl).1⟩

set_option maxRecDepth 100000 in
/-- C4: on the specification's example input, the shaper yields the
explanation `Here is my advice.`, exactly one recommendation whose
`tabId` is `tab-1`, and the given summary string. -/
theorem example_input_shaped :
    (shapeResponse c4Text).explanation = "Here is my advice.".data ∧
    (shapeResponse c4Text).recommendations = some (.jarr (.cons c4Rec .nil)) ∧
    jsGetField c4Rec ("tabId".data) = some (.jstr ("tab-1".data)) ∧
    (shapeResponse c4Text).textMessageSummary =
      .jstr ("Hi, here are your options...".data) :=
  ⟨rfl, rfl, rfl, rfl⟩

/-- C7 counterexample: a POST request whose body is missing `userMessage`
(so the claim requires status 400) gets status 500 when the server
credential is also absent, because the credential check runs first. -/
theorem pricing_validation_cex :
    jsonParse ("\x7b\"options\":[1]\x7d".data) =
      some (.jobj (.cons ("options".data) (.jarr (.cons (.jnum ['1']) .nil)) .nil)) ∧
    jsGetField (.jobj (.cons ("options".data) (.jarr (.cons (.jnum ['1']) .nil)) .nil))
      ("userMessage".data) = none ∧
    pricingHandler none postMethod ("\x7b\"options\":[1]\x7d".data)
      (fun _ => .fails 0 none) =
      ⟨500, .errMsg ("Server not configured: missing ANTHROPIC_API_KEY.".data)⟩ :=
  ⟨rfl, rfl, rfl⟩

/-- C7 (amended): when the server credential is present, a pricing POST
request with falsy `userMessage` or falsy `options` is answered 400; when
the credential is absent (checked first), the answer is 500 with the
configuration message, whatever the fields are. -/
theorem pricing_validation_errors :
    (∀ env body (up : List JsMsg → Upstream) bv,
      jsonParse body = some bv → bv ≠ .jnull → envTruthy env = true →
      (jsTruthyOpt (jsGetField bv ("userMessage".data)) = false ∨
       jsTruthyOpt (jsGetField bv ("options".data)) = false) →
      pricingHandler env postMethod body up =
        ⟨400, .errMsg ("Missing required fields".data)⟩) ∧
    (∀ env body (up : List JsMsg → Upstream) bv,
      jsonParse body = some bv → bv ≠ .jnull → envTruthy env = false →
      pricingHandler env postMethod body up =
        ⟨500, .errMsg ("Server not configured: missing ANTHROPIC_API_KEY.".data)⟩) := by
  constructor
  · intro env body up bv hb hnn henv hmiss
    rcases hmiss with h | h <;>
      simp [pricingHandler, hb, hnn, henv, h]
  · intro env body up bv hb hnn henv
    simp [pricingHandler, hb, hnn, henv]

/-- Witness for C7 at a body with empty options (falsy fields) and at an
absent credential. -/
theorem pricing_validation_errors_witness :
    pricingHandler (some ("k".data)) postMethod ("\x7b\x7d".data)
      (fun _ => .fails 0 none) =
      ⟨400, .errMsg ("Missing required fields".data)⟩ ∧
    pricingHandler none postMethod ("\x7b\x7d".data) (fun _ => .fails 0 none) =
      ⟨500, .errMsg ("Server not configured: missing ANTHROPIC_API_KEY.".data)⟩ :=
  ⟨pricing_validation_errors.1 (some ("k".data)) ("\x7b\x7d".data) _ (.jobj .nil)
      rfl (by decide) rfl (Or.inl rfl),
   pricing_validation_errors.2 none ("\x7b\x7d".data) _ (.jobj .nil)
      rfl (by decide) rfl⟩

/-- C10: the required-field check is a truthiness test: an empty-string
`userMessage` is rejected 400 as missing, while an empty `options` list is
truthy, passes validation, and the handler proceeds to a 200 with an empty
options summary in the prompt. -/
theorem truthiness_check :
    (∀ env body (up : List JsMsg → Upstream) bv,
      jsonParse body = some bv → bv ≠ .jnull → envTruthy env = true →
      jsGetField bv ("userMessage".data) = some (.jstr []) →
      pricingHandler env postMethod body up =
        ⟨400, .errMsg ("Missing required fields".data)⟩) ∧
    (∀ env body (up : List JsMsg → Upstream) bv data raw,
      jsonParse body = some bv → bv ≠ .jnull → envTruthy env = true →
      jsTruthyOpt (jsGetField bv ("userMessage".data)) = true →
      jsGetField bv ("options".data) = some (.jarr .nil) →
      historyMode (jsGetField bv ("conversationHistory".data)) ≠ .badHistory →
      (∀ ms, up ms = .succeeds data) →
      extractText data = some raw →
      (pricingHandler env postMethod body up).statusCode = 200 ∧
      optionsSummaryE .nil = some []) := by
  constructor
  · intro env body up bv hb hnn henv hum
    simp [pricingHandler, hb, hnn, henv, hum, jsTruthyOpt, jsTruthy]
  · intro env body up bv data raw hb hnn henv hum hopts hch hup hex
    refine ⟨?_, rfl⟩
    have htro : jsTruthyOpt (jsGetField bv ("options".data)) = true := by
      rw [hopts]; rfl
    have hja : jsTruthyOpt (some (JVal.jarr JElems.nil)) = true := rfl
    cases h : historyMode (jsGetField bv ("conversationHistory".data)) with
    | badHistory => exact absurd h hch
    | noHistory =>
      simp [pricingHandler, hb, hnn, henv, hum, hopts, htro, h, hup, hex,
        optionsSummaryE, hja]
    | follow es =>
      simp [pricingHandler, hb, hnn, henv, hum, hopts, htro, h, hup, hex,
        optionsSummaryE, hja]

/-- Witness for C10: empty `userMessage` is 400; empty options list with a
one-word user message reaches 200. -/
theorem truthiness_check_witness :
    pricingHandler (some ("k".data)) postMethod
      ("\x7b\"userMessage\":\"\",\"options\":[1]\x7d".data) (fun _ => .fails 0 none) =
      ⟨400, .errMsg ("Missing required fields".data)⟩ ∧
    (pricingHandler (some ("k".data)) postMethod
      ("\x7b\"userMessage\":\"x\",\"options\":[]\x7d".data)
      (fun _ => .succeeds (.jobj (.cons ("content".data)
        (.jarr (.cons (.jobj (.cons ("text".data) (.jstr ("hi".data)) .nil)) .nil))
        .nil)))).statusCode = 200 :=
  ⟨truthiness_check.1 (some ("k".data))
      ("\x7b\"userMessage\":\"\",\"options\":[1]\x7d".data) (fun _ => .fails 0 none)
      (.jobj (.cons ("userMessage".data) (.jstr [])
        (.cons ("options".data) (.jarr (.cons (.jnum ['1']) .nil)) .nil)))
      rfl (by decide) rfl rfl,
   (truthiness_check.2 (some ("k".data))
      ("\x7b\"userMessage\":\"x\",\"options\":[]\x7d".data)
      (fun _ => .succeeds (.jobj (.cons ("content".data)
        (.jarr (.cons (.jobj (.cons ("text".data) (.jstr ("hi".data)) .nil)) .nil))
        .nil)))
      (.jobj (.cons ("userMessage".data) (.jstr ['x'])
        (.cons ("options".data) (.jarr .nil) .nil)))
      (.jobj (.cons ("content".data)
        (.jarr (.cons (.jobj (.cons ("text".data) (.jstr ("hi".data)) .nil)) .nil))
        .nil)) ("hi".data)
      rfl (by decide) rfl rfl rfl (by decide) (fun _ => rfl) rfl).1⟩

/-- C8: for both handlers, an upstream non-success reply is mirrored: the
response status equals the upstream status and the body carries the
upstream error message, or `API request failed` when none is present; an
upstream call that throws before producing a status yields a generic
500. -/
theorem upstream_errors_mirrored :
    (∀ env body (up : List JsMsg → Upstream) bv opts summ st em,
      jsonParse body = some bv → bv ≠ .jnull → envTruthy env = true →
      jsTruthyOpt (jsGetField bv ("userMessage".data)) = true →
      jsGetField bv ("options".data) = some (.jarr opts) →
      optionsSummaryE opts = some summ →
      historyMode (jsGetField bv ("conversationHistory".data)) ≠ .badHistory →
      (∀ ms, up ms = .fails st em) →
      pricingHandler env postMethod body up =
        ⟨st, .errMsg (em.getD ("API request failed".data))⟩) ∧
    (∀ env body (up : List JsMsg → Upstream) bv opts summ m,
      jsonParse body = some bv → bv ≠ .jnull → envTruthy env = true →
      jsTruthyOpt (jsGetField bv ("userMessage".data)) = true →
      jsGetField bv ("options".data) = some (.jarr opts) →
      optionsSummaryE opts = some summ →
      historyMode (jsGetField bv ("conversationHistory".data)) ≠ .badHistory →
      (∀ ms, up ms = .throws m) →
      pricingHandler env postMethod body up =
        ⟨500, .caught (.upstreamThrew m)⟩) ∧
    (∀ body (up : Upstream) bv st em,
      jsonParse body = some bv → bv ≠ .jnull →
      jsTruthyOpt (jsGetField bv ("apiKey".data)) = true →
      jsTruthyOpt (jsGetField bv ("pdfBase64".data)) = true →
      up = .fails st em →
      parseInvoiceHandler postMethod body up =
        ⟨st, .errMsg (em.getD ("API request failed".data))⟩) ∧
    (∀ body (up : Upstream) bv m,
      jsonParse body = some bv → bv ≠ .jnull →
      jsTruthyOpt (jsGetField bv ("apiKey".data)) = true →
      jsTruthyOpt (jsGetField bv ("pdfBase64".data)) = true →
      up = .throws m →
      parseInvoiceHandler postMethod body up =
        ⟨500, .caught (.upstreamThrew m)⟩) := by
  refine ⟨?_, ?_, ?_, ?_⟩
  · intro env body up bv opts summ st em hb hnn henv hum hopts hsum hch hup
    have htro : jsTruthyOpt (jsGetField bv ("options".data)) = true := by
      rw [hopts]; rfl
    have hja : jsTruthyOpt (some (JVal.jarr opts)) = true := rfl
    cases h : historyMode (jsGetField bv ("conversationHistory".data)) with
    | badHistory => exact absurd h hch
    | noHistory => simp [pricingHandler, hb, hnn, henv, hum, hopts, htro, hja, hsum, h, hup]
    | follow es => simp [pricingHandler, hb, hnn, henv, hum, hopts, htro, hja, hsum, h, hup]
  · intro env body up bv opts summ m hb hnn henv hum hopts hsum hch hup
    have htro : jsTruthyOpt (jsGetField bv ("options".data)) = true := by
      rw [hopts]; rfl
    have hja : jsTruthyOpt (some (JVal.jarr opts)) = true := rfl
    cases h : historyMode (jsGetField bv ("conversationHistory".data)) with
    | badHistory => exact absurd h hch
    | noHistory => simp [pricingHandler, hb, hnn, henv, hum, hopts, htro, hja, hsum, h, hup]
    | follow es => simp [pricingHandler, hb, hnn, henv, hum, hopts, htro, hja, hsum, h, hup]
  · intro body up bv st em hb hnn hk hp hup
    simp [parseInvoiceHandler, hb, hnn, hk, hp, hup]
  · intro body up bv m hb hnn hk hp hup
    simp [parseInvoiceHandler, hb, hnn, hk, hp, hup]

/-- Witness for C8: a 429 upstream failure with a message, a thrown
upstream call, and the invoice handler under a 503 with no message. -/
theorem upstream_errors_mirrored_witness :
    pricingHandler (some ("k".data)) postMethod
      ("\x7b\"userMessage\":\"x\",\"options\":[]\x7d".data)
      (fun _ => .fails 429 (some ("rate limited".data))) =
      ⟨429, .errMsg ("rate limited".data)⟩ ∧
    pricingHandler (some ("k".data)) postMethod
      ("\x7b\"userMessage\":\"x\",\"options\":[]\x7d".data)
      (fun _ => .throws ("boom".data)) =
      ⟨500, .caught (.upstreamThrew ("boom".data))⟩ ∧
    parseInvoiceHandler postMethod
      ("\x7b\"apiKey\":\"a\",\"pdfBase64\":\"b\"\x7d".data) (.fails 503 none) =
      ⟨503, .errMsg ("API request failed".data)⟩ ∧
    parseInvoiceHandler postMethod
      ("\x7b\"apiKey\":\"a\",\"pdfBase64\":\"b\"\x7d".data) (.throws ("down".data)) =
      ⟨500, .caught (.upstreamThrew ("down".data))⟩ :=
  ⟨upstream_errors_mirrored.1 (some ("k".data))
      ("\x7b\"userMessage\":\"x\",\"options\":[]\x7d".data)
      (fun _ => .fails 429 (some ("rate limited".data)))
      (.jobj (.cons ("userMessage".data) (.jstr ['x'])
        (.cons ("options".data) (.jarr .nil) .nil))) .nil []
      429 (some ("rate limited".data)) rfl (by decide) rfl rfl rfl rfl (by decide)
      (fun _ => rfl),
   upstream_errors_mirrored.2.1 (some ("k".data))
      ("\x7b\"userMessage\":\"x\",\"options\":[]\x7d".data)
      (fun _ => .throws ("boom".data))
      (.jobj (.cons ("userMessage".data) (.jstr ['x'])
        (.cons ("options".data) (.jarr .nil) .nil))) .nil []
      ("boom".data) rfl (by decide) rfl rfl rfl rfl (by decide) (fun _ => rfl),
   upstream_errors_mirrored.2.2.1
      ("\x7b\"apiKey\":\"a\",\"pdfBase64\":\"b\"\x7d".data) (.fails 503 none)
      (.jobj (.cons ("apiKey".data) (.jstr ['a'])
        (.cons ("pdfBase64".data) (.jstr ['b']) .nil))) 503 none
      rfl (by decide) rfl rfl rfl,
   upstream_errors_mirrored.2.2.2
      ("\x7b\"apiKey\":\"a\",\"pdfBase64\":\"b\"\x7d".data) (.throws ("down".data))
      (.jobj (.cons ("apiKey".data) (.jstr ['a'])
        (.cons ("pdfBase64".data) (.jstr ['b']) .nil))) ("down".data)
      rfl (by decide) rfl rfl rfl⟩

/-! ## Lemmas about the regex embedding -/

/-- Characterization of `suffixHasKeyClose`: some suffix position holds
the key, with a closing brace at or beyond its end. -/
theorem suffixHasKeyClose_iff (u : List Char) :
    suffixHasKeyClose u = true ↔
    ∃ j k, recsKey <+: u.drop j ∧ j + 17 ≤ k ∧ u[k]? = some '\x7d' := by
  induction u with
  | nil =>
    simp only [suffixHasKeyClose]
    constructor
    · intro h; cases h
    · rintro ⟨j, k, _, _, hk⟩
      simp at hk
  | cons c cs ih =>
    simp only [suffixHasKeyClose, Bool.or_eq_true, Bool.and_eq_true, ih]
    constructor
    · rintro (⟨hpre, hcl⟩ | ⟨j, k, hj, hjk, hk⟩)
      · rw [List.isPrefixOf_iff_prefix] at hpre
        rw [List.contains_iff_exists_mem_beq] at hcl
        obtain ⟨a, ha, hbeq⟩ := hcl
        have ha' : a = '\x7d' := (eq_of_beq hbeq).symm
        subst ha'
        rw [List.mem_iff_getElem?] at ha
        obtain ⟨m, hm⟩ := ha
        refine ⟨0, 17 + m, by simpa using hpre, by omega, ?_⟩
        rw [← List.getElem?_drop]
        exact hm
      · exact ⟨j + 1, k + 1, by simpa using hj, by omega, by simpa using hk⟩
    · rintro ⟨j, k, hj, hjk, hk⟩
      cases j with
      | zero =>
        left
        rw [List.drop_zero] at hj
        constructor
        · rw [List.isPrefixOf_iff_prefix]; exact hj
        · rw [List.contains_iff_exists_mem_beq]
          refine ⟨'\x7d', ?_, by simp⟩
          rw [List.mem_iff_getElem?]
          refine ⟨k - 17, ?_⟩
          rw [List.getElem?_drop]
          have : 17 + (k - 17) = k := by omega
          rw [this]; exact hk
      | succ j' =>
        right
        refine ⟨j', k - 1, by simpa using hj, by omega, ?_⟩
        have hk1 : k = (k - 1) + 1 := by omega
        rw [hk1] at hk
        simpa using hk

/-- A returned match start is viable and least among viable positions. -/
theorem matchStartAux_some (s : List Char) (i : Nat)
    (h : matchStartAux s = some i) :
    ViableAt s i ∧ ∀ l, l < i → ¬ViableAt s l := by
  induction s generalizing i with
  | nil => cases h
  | cons c cs ih =>
    simp only [matchStartAux] at h
    by_cases hc : (c = '\x7b' && suffixHasKeyClose cs) = true
    · rw [if_pos hc] at h
      cases h
      rw [Bool.and_eq_true] at hc
      refine ⟨⟨by simpa using hc.1, by simpa using hc.2⟩, ?_⟩
      intro l hl; omega
    · rw [if_neg hc] at h
      obtain ⟨i', hi', rfl⟩ := Option.map_eq_some'.mp h
      obtain ⟨hv, hmin⟩ := ih i' hi'
      constructor
      · exact ⟨by simpa using hv.1, by simpa using hv.2⟩
      · intro l hl
        cases l with
        | zero =>
          rintro ⟨h1, h2⟩
          apply hc
          rw [Bool.and_eq_true]
          exact ⟨by simpa using h1, by simpa using h2⟩
        | succ l' =>
          rintro ⟨h1, h2⟩
          exact hmin l' (by omega) ⟨by simpa using h1, by simpa using h2⟩

/-- When no start is returned, no position is viable. -/
theorem matchStartAux_none (s : List Char)
    (h : matchStartAux s = none) : ∀ i, ¬ViableAt s i := by
  induction s with
  | nil => intro i ⟨h1, _⟩; simp at h1
  | cons c cs ih =>
    simp only [matchStartAux] at h
    by_cases hc : (c = '\x7b' && suffixHasKeyClose cs) = true
    · rw [if_pos hc] at h; cases h
    · rw [if_neg hc] at h
      rw [Option.map_eq_none'] at h
      intro i
      cases i with
      | zero =>
        rintro ⟨h1, h2⟩
        apply hc
        rw [Bool.and_eq_true]
        exact ⟨by simpa using h1, by simpa using h2⟩
      | succ i' =>
        rintro ⟨h1, h2⟩
        exact ih h i' ⟨by simpa using h1, by simpa using h2⟩

/-- A viable position forces a returned match start. -/
theorem matchStartAux_isSome (s : List Char) (i : Nat) (h : ViableAt s i) :
    (matchStartAux s).isSome = true := by
  cases hm : matchStartAux s with
  | some j => rfl
  | none => exact absurd h (matchStartAux_none s hm i)

/-- A returned key index is a key occurrence and least among them. -/
theorem firstKeyIdx_some (u : List Char) (j : Nat)
    (h : firstKeyIdx u = some j) :
    KeyAt u j ∧ ∀ l, l < j → ¬KeyAt u l := by
  induction u generalizing j with
  | nil => cases h
  | cons c cs ih =>
    simp only [firstKeyIdx] at h
    by_cases hc : recsKey.isPrefixOf (c :: cs) = true
    · rw [if_pos hc] at h
      cases h
      rw [List.isPrefixOf_iff_prefix] at hc
      exact ⟨by simpa [KeyAt] using hc, fun l hl => by omega⟩
    · rw [if_neg hc] at h
      obtain ⟨j', hj', rfl⟩ := Option.map_eq_some'.mp h
      obtain ⟨hk, hmin⟩ := ih j' hj'
      constructor
      · simpa [KeyAt] using hk
      · intro l hl
        cases l with
        | zero =>
          intro hkey
          apply hc
          rw [List.isPrefixOf_iff_prefix]
          simpa [KeyAt] using hkey
        | succ l' =>
          intro hkey
          exact hmin l' (by omega) (by simpa [KeyAt] using hkey)

/-- A key occurrence forces a returned key index. -/
theorem firstKeyIdx_isSome (u : List Char) (j : Nat) (h : KeyAt u j) :
    (firstKeyIdx u).isSome = true := by
  induction u generalizing j with
  | nil =>
    exfalso
    have := h.length_le
    simp [recsKey] at this
  | cons c cs ih =>
    simp only [firstKeyIdx]
    by_cases hc : recsKey.isPrefixOf (c :: cs) = true
    · rw [if_pos hc]; rfl
    · rw [if_neg hc]
      cases j with
      | zero =>
        exfalso
        apply hc
        rw [List.isPrefixOf_iff_prefix]
        simpa [KeyAt] using h
      | succ j' =>
        have := ih j' (by simpa [KeyAt] using h)
        cases hf : firstKeyIdx cs with
        | some l => rfl
        | none => rw [hf] at this; cases this

/-- When no last index is returned, the character does not occur. -/
theorem lastIdxOf_none (c : Char) (s : List Char)
    (h : lastIdxOf c s = none) : ∀ l : Nat, s[l]? ≠ some c := by
  induction s with
  | nil => intro l; simp
  | cons x xs ih =>
    simp only [lastIdxOf] at h
    cases hr : lastIdxOf c xs with
    | some i => rw [hr] at h; cases h
    | none =>
      rw [hr] at h
      by_cases hx : x = c
      · rw [if_pos hx] at h; cases h
      · rw [if_neg hx] at h
        intro l
        cases l with
        | zero => simpa using hx
        | succ l' => simpa using ih hr l'

/-- A returned last index is an occurrence and greatest among them. -/
theorem lastIdxOf_some (c : Char) (s : List Char) (k : Nat)
    (h : lastIdxOf c s = some k) :
    s[k]? = some c ∧ ∀ l, k < l → s[l]? ≠ some c := by
  induction s generalizing k with
  | nil => cases h
  | cons x xs ih =>
    simp only [lastIdxOf] at h
    cases hr : lastIdxOf c xs with
    | some i =>
      rw [hr] at h
      cases h
      obtain ⟨hget, hmax⟩ := ih i hr
      refine ⟨by simpa using hget, ?_⟩
      intro l hl
      cases l with
      | zero => omega
      | succ l' =>
        intro hc
        exact hmax l' (by omega) (by simpa using hc)
    | none =>
      rw [hr] at h
      by_cases hx : x = c
      · rw [if_pos hx] at h
        cases h
        refine ⟨by simpa using hx, ?_⟩
        intro l hl
        cases l with
        | zero => omega
        | succ l' =>
          intro hc
          exact lastIdxOf_none c xs hr l' (by simpa using hc)
      · rw [if_neg hx] at h; cases h

/-- An occurrence forces a returned last index. -/
theorem lastIdxOf_isSome (c : Char) (s : List Char) (k : Nat)
    (h : s[k]? = some c) : (lastIdxOf c s).isSome = true := by
  cases hr : lastIdxOf c s with
  | some i => rfl
  | none => exact absurd h (lastIdxOf_none c s hr k)

/-- The pattern holds exactly when the regex finds a start. -/
theorem hasPattern_iff (s : List Char) :
    HasPattern s ↔ (matchStartAux s).isSome = true := by
  constructor
  · rintro ⟨i, j, k, hi, hij, hj, hjk, hk⟩
    apply matchStartAux_isSome s i
    refine ⟨hi, ?_⟩
    rw [suffixHasKeyClose_iff]
    refine ⟨j - (i + 1), k - (i + 1), ?_, by omega, ?_⟩
    · rw [List.drop_drop]
      have : i + 1 + (j - (i + 1)) = j := by omega
      rw [this]; exact hj
    · rw [List.getElem?_drop]
      have : i + 1 + (k - (i + 1)) = k := by omega
      rw [this]; exact hk
  · intro h
    obtain ⟨i, hi⟩ := Option.isSome_iff_exists.mp h
    obtain ⟨⟨h1, h2⟩, _⟩ := matchStartAux_some s i hi
    rw [suffixHasKeyClose_iff] at h2
    obtain ⟨j', k', hj, hjk, hk⟩ := h2
    rw [List.drop_drop] at hj
    rw [List.getElem?_drop] at hk
    exact ⟨i, i + 1 + j', i + 1 + k', h1, by omega, hj, by omega, hk⟩

/-- A returned index of `listIndexOf?` is an occurrence and least among
occurrences. -/
theorem listIndexOf?_some (pat s : List Char) (i : Nat)
    (h : listIndexOf? pat s = some i) :
    pat <+: s.drop i ∧ ∀ l, l < i → ¬(pat <+: s.drop l) := by
  induction s generalizing i with
  | nil =>
    simp only [listIndexOf?] at h
    by_cases hp : pat = []
    · rw [if_pos hp] at h
      cases h
      simp [hp]
    · rw [if_neg hp] at h; cases h
  | cons c cs ih =>
    simp only [listIndexOf?] at h
    by_cases hp : pat.isPrefixOf (c :: cs) = true
    · rw [if_pos hp] at h
      cases h
      rw [List.isPrefixOf_iff_prefix] at hp
      exact ⟨by simpa using hp, fun l hl => by omega⟩
    · rw [if_neg hp] at h
      obtain ⟨i', hi', rfl⟩ := Option.map_eq_some'.mp h
      obtain ⟨hocc, hmin⟩ := ih i' hi'
      refine ⟨by simpa using hocc, ?_⟩
      intro l hl
      cases l with
      | zero =>
        intro hpre
        apply hp
        rw [List.isPrefixOf_iff_prefix]
        simpa using hpre
      | succ l' =>
        intro hpre
        exact hmin l' (by omega) (by simpa using hpre)

/-- An occurrence forces a returned index. -/
theorem listIndexOf?_isSome (pat s : List Char) (i : Nat)
    (h : pat <+: s.drop i) : (listIndexOf? pat s).isSome = true := by
  induction s generalizing i with
  | nil =>
    simp only [List.drop_nil] at h
    have : pat = [] := List.prefix_nil.mp h
    simp [listIndexOf?, this]
  | cons c cs ih =>
    simp only [listIndexOf?]
    by_cases hp : pat.isPrefixOf (c :: cs) = true
    · rw [if_pos hp]; rfl
    · rw [if_neg hp]
      cases i with
      | zero =>
        exfalso
        apply hp
        rw [List.isPrefixOf_iff_prefix]
        simpa using h
      | succ i' =>
        have := ih i' (by simpa using h)
        cases hf : listIndexOf? pat cs with
        | some l => rfl
        | none => rw [hf] at this; cases this

/-- Under the pattern hypothesis, the regex match starts at the first
`\x7b` of the text and ends at its last `\x7d`. -/
theorem matchSpan_first_last (s : List Char) (h : HasPattern s) :
    ∃ i k, matchSpan s = some (i, k) ∧
      s[i]? = some '\x7b' ∧ (∀ l, l < i → s[l]? ≠ some '\x7b') ∧
      s[k]? = some '\x7d' ∧ (∀ l : Nat, k < l → s[l]? ≠ some '\x7d') ∧
      i < k := by
  obtain ⟨i0, hm⟩ := Option.isSome_iff_exists.mp ((hasPattern_iff s).mp h)
  obtain ⟨⟨hbr, hkc⟩, hmin⟩ := matchStartAux_some s i0 hm
  obtain ⟨j1, k1, hj1, hjk1, hk1⟩ := (suffixHasKeyClose_iff _).mp hkc
  obtain ⟨j0, hj0⟩ :=
    Option.isSome_iff_exists.mp (firstKeyIdx_isSome _ j1 hj1)
  obtain ⟨hkey0, hkeymin⟩ := firstKeyIdx_some _ j0 hj0
  have hj0le : j0 ≤ j1 := by
    by_contra hgt
    exact hkeymin j1 (by omega) hj1
  have hvk1 : ((s.drop (i0 + 1)).drop (j0 + 17))[k1 - (j0 + 17)]? = some '\x7d' := by
    rw [List.getElem?_drop]
    have : j0 + 17 + (k1 - (j0 + 17)) = k1 := by omega
    rw [this]; exact hk1
  obtain ⟨k2, hk2⟩ :=
    Option.isSome_iff_exists.mp (lastIdxOf_isSome '\x7d' _ _ hvk1)
  obtain ⟨hcl2, hclmax⟩ := lastIdxOf_some _ _ _ hk2
  refine ⟨i0, i0 + 1 + j0 + 17 + k2, ?_, hbr, ?_, ?_, ?_, by omega⟩
  · simp only [matchSpan, hm, hj0]
    rw [hk2]
  · intro l hl hbl
    refine hmin l hl ⟨hbl, ?_⟩
    rw [suffixHasKeyClose_iff]
    refine ⟨(i0 + 1 + j1) - (l + 1), (i0 + 1 + k1) - (l + 1), ?_, by omega, ?_⟩
    · rw [List.drop_drop]
      have : l + 1 + (i0 + 1 + j1 - (l + 1)) = i0 + 1 + j1 := by omega
      rw [this]
      rw [List.drop_drop] at hj1
      exact hj1
    · rw [List.getElem?_drop]
      have : l + 1 + (i0 + 1 + k1 - (l + 1)) = i0 + 1 + k1 := by omega
      rw [this]
      rw [List.getElem?_drop] at hk1
      exact hk1
  · rw [List.drop_drop, List.getElem?_drop] at hcl2
    have heq : i0 + 1 + (j0 + 17) + k2 = i0 + 1 + j0 + 17 + k2 := by omega
    rw [heq] at hcl2
    exact hcl2
  · intro l hl hcl
    have hge : i0 + 1 + (j0 + 17) ≤ l := by omega
    refine hclmax (l - (i0 + 1 + (j0 + 17))) (by omega) ?_
    rw [List.drop_drop, List.getElem?_drop]
    have : i0 + 1 + (j0 + 17) + (l - (i0 + 1 + (j0 + 17))) = l := by omega
    rw [this]; exact hcl

/-- `indexOf` of the matched string finds exactly the match start, because
the matched string begins with a brace and no brace sits before the
start. -/
theorem jsonStart_eq (s : List Char) (i k : Nat)
    (hbr : s[i]? = some '\x7b') (hmin : ∀ l, l < i → s[l]? ≠ some '\x7b')
    (hik : i < k) :
    listIndexOf? ((s.drop i).take (k + 1 - i)) s = some i := by
  have hocc : (s.drop i).take (k + 1 - i) <+: s.drop i := List.take_prefix _ _
  obtain ⟨i1, hi1⟩ :=
    Option.isSome_iff_exists.mp (listIndexOf?_isSome _ s i hocc)
  obtain ⟨hocc1, hmin1⟩ := listIndexOf?_some _ s i1 hi1
  have hm0 : ((s.drop i).take (k + 1 - i))[0]? = some '\x7b' := by
    rw [List.getElem?_take_of_lt (by omega)]
    rw [List.getElem?_drop]
    simpa using hbr
  have hle : i1 ≤ i := by
    by_contra hgt
    exact hmin1 i (by omega) hocc
  have hbr1 : s[i1]? = some '\x7b' := by
    obtain ⟨t, ht⟩ := hocc1
    have : (s.drop i1)[0]? = some '\x7b' := by
      rw [← ht]
      rw [List.getElem?_append_left]
      · exact hm0
      · have hlen : 0 < ((s.drop i).take (k + 1 - i)).length := by
          rw [List.length_take]
          have hi : i < s.length := by
            by_contra hge
            rw [List.getElem?_eq_none (by omega)] at hbr
            cases hbr
          rw [List.length_drop]
          omega
        exact hlen
    rw [List.getElem?_drop] at this
    simpa using this
  have : i1 = i := by
    by_contra hne
    exact hmin i1 (by omega) hbr1
  rw [this] at hi1
  exact hi1

/-- Shape of the shaper output when the span parses: the explanation is
the trimmed prefix before the match start, and the structured fields come
off the parsed object. -/
theorem shapeResponse_parse_some (raw : List Char) (i k : Nat) (parsed : JVal)
    (hspan : matchSpan (jsTrim raw) = some (i, k))
    (hidx : listIndexOf? (((jsTrim raw).drop i).take (k + 1 - i)) (jsTrim raw) = some i)
    (hp : jsonParse (jsTrim (stripFences (((jsTrim raw).drop i).take (k + 1 - i)))) =
      some parsed) :
    shapeResponse raw =
      ⟨jsTrim ((jsTrim raw).take i),
       some (match jsGetField parsed ("recommendations".data) with
         | some v => if jsTruthy v then v else .jarr .nil
         | none => .jarr .nil),
       match jsGetField parsed ("textMessageSummary".data) with
         | some v => if jsTruthy v then v else .jstr []
         | none => .jstr []⟩ := by
  have hm : jsonMatch0 (jsTrim raw) =
      some (((jsTrim raw).drop i).take (k + 1 - i)) := by
    simp only [jsonMatch0, hspan, Option.map_some']
  simp only [shapeResponse, hm, hidx, hp, Option.getD_some]

/-- Shape of the shaper output when the span exists but fails to parse:
the whole trimmed text is the explanation, no recommendations, empty
summary. -/
theorem shapeResponse_parse_none (raw m : List Char)
    (hm : jsonMatch0 (jsTrim raw) = some m)
    (hp : jsonParse (jsTrim (stripFences m)) = none) :
    shapeResponse raw = ⟨jsTrim raw, none, .jstr []⟩ := by
  simp only [shapeResponse, hm, hp]

/-- Shape of the shaper output when the regex does not match. -/
theorem shapeResponse_no_match (raw : List Char)
    (hm : jsonMatch0 (jsTrim raw) = none) :
    shapeResponse raw = ⟨jsTrim raw, none, .jstr []⟩ := by
  simp only [shapeResponse, hm]

set_option maxRecDepth 40000 in
/-- C1 (amended): when the shaper's working text holds a brace followed by
the quoted key and a later closing brace, the regex match runs from the
first `\x7b` of the text through the last `\x7d` of the text, and the
trimmed prefix before that span becomes the explanation whenever the
fence-stripped span parses as JSON; when parsing fails, the whole trimmed
text becomes the explanation instead. -/
theorem span_first_to_last (raw : List Char) (h : HasPattern (jsTrim raw)) :
    ∃ i k, jsonMatch0 (jsTrim raw) =
        some (((jsTrim raw).drop i).take (k + 1 - i)) ∧
      (jsTrim raw)[i]? = some '\x7b' ∧
      (∀ l, l < i → (jsTrim raw)[l]? ≠ some '\x7b') ∧
      (jsTrim raw)[k]? = some '\x7d' ∧
      (∀ l : Nat, k < l → (jsTrim raw)[l]? ≠ some '\x7d') ∧
      (∀ parsed, jsonParse (jsTrim (stripFences
          (((jsTrim raw).drop i).take (k + 1 - i)))) = some parsed →
        (shapeResponse raw).explanation = jsTrim ((jsTrim raw).take i)) ∧
      (jsonParse (jsTrim (stripFences
          (((jsTrim raw).drop i).take (k + 1 - i)))) = none →
        (shapeResponse raw).explanation = jsTrim raw) := by
  obtain ⟨i, k, hspan, hbr, hbrmin, hcl, hclmax, hik⟩ :=
    matchSpan_first_last (jsTrim raw) h
  have hidx := jsonStart_eq (jsTrim raw) i k hbr hbrmin hik
  have hm : jsonMatch0 (jsTrim raw) =
      some (((jsTrim raw).drop i).take (k + 1 - i)) := by
    simp only [jsonMatch0, hspan, Option.map_some']
  refine ⟨i, k, hm, hbr, hbrmin, hcl, hclmax, ?_, ?_⟩
  · intro parsed hp
    rw [shapeResponse_parse_some raw i k parsed hspan hidx hp]
  · intro hp
    rw [shapeResponse_parse_none raw _ hm hp]

set_option maxRecDepth 40000 in
/-- Witness for C1 at a short text whose span parses. -/
theorem span_first_to_last_witness :
    HasPattern (jsTrim ("Hi \x7b\"recommendations\":1\x7d".data)) ∧
    (∃ i k, jsonMatch0 (jsTrim ("Hi \x7b\"recommendations\":1\x7d".data)) =
        some (((jsTrim ("Hi \x7b\"recommendations\":1\x7d".data)).drop i).take
          (k + 1 - i)) ∧
      (jsTrim ("Hi \x7b\"recommendations\":1\x7d".data))[i]? = some '\x7b' ∧
      (∀ l, l < i →
        (jsTrim ("Hi \x7b\"recommendations\":1\x7d".data))[l]? ≠ some '\x7b') ∧
      (jsTrim ("Hi \x7b\"recommendations\":1\x7d".data))[k]? = some '\x7d' ∧
      (∀ l : Nat, k < l →
        (jsTrim ("Hi \x7b\"recommendations\":1\x7d".data))[l]? ≠ some '\x7d') ∧
      (∀ parsed, jsonParse (jsTrim (stripFences
          (((jsTrim ("Hi \x7b\"recommendations\":1\x7d".data)).drop i).take
            (k + 1 - i)))) = some parsed →
        (shapeResponse ("Hi \x7b\"recommendations\":1\x7d".data)).explanation =
          jsTrim ((jsTrim ("Hi \x7b\"recommendations\":1\x7d".data)).take i)) ∧
      (jsonParse (jsTrim (stripFences
          (((jsTrim ("Hi \x7b\"recommendations\":1\x7d".data)).drop i).take
            (k + 1 - i)))) = none →
        (shapeResponse ("Hi \x7b\"recommendations\":1\x7d".data)).explanation =
          jsTrim ("Hi \x7b\"recommendations\":1\x7d".data))) :=
  ⟨(hasPattern_iff _).mpr rfl,
   span_first_to_last ("Hi \x7b\"recommendations\":1\x7d".data)
     ((hasPattern_iff _).mpr rfl)⟩

set_option maxRecDepth 40000 in
/-- C1 counterexample: the pattern is present but the span fails to parse,
so the explanation is the whole text, not the trimmed prefix `x` before
the span that the claim requires. -/
theorem span_first_to_last_cex :
    HasPattern (jsTrim ("x \x7b\"recommendations\"\x7d".data)) ∧
    (shapeResponse ("x \x7b\"recommendations\"\x7d".data)).explanation =
      "x \x7b\"recommendations\"\x7d".data ∧
    "x \x7b\"recommendations\"\x7d".data ≠ "x".data :=
  ⟨(hasPattern_iff _).mpr rfl, rfl, by decide⟩

/-- C3 (amended): when the matched span, after fence stripping, fails to
parse as JSON, the shaper returns no recommendations, the empty summary,
and the whole trimmed text as the explanation; nothing is thrown. -/
theorem parse_failure_soft (raw m : List Char)
    (hm : jsonMatch0 (jsTrim raw) = some m)
    (hp : jsonParse (jsTrim (stripFences m)) = none) :
    shapeResponse raw = ⟨jsTrim raw, none, .jstr []⟩ :=
  shapeResponse_parse_none raw m hm hp

/-- Witness for C3 at a concrete unparseable span. -/
theorem parse_failure_soft_witness :
    jsonMatch0 (jsTrim ("ok \x7b\"recommendations\"\x7d".data)) =
      some ("\x7b\"recommendations\"\x7d".data) ∧
    jsonParse (jsTrim (stripFences ("\x7b\"recommendations\"\x7d".data))) = none ∧
    shapeResponse ("ok \x7b\"recommendations\"\x7d".data) =
      ⟨jsTrim ("ok \x7b\"recommendations\"\x7d".data), none, .jstr []⟩ :=
  ⟨rfl, rfl, parse_failure_soft ("ok \x7b\"recommendations\"\x7d".data)
    ("\x7b\"recommendations\"\x7d".data) rfl rfl⟩

/-- C3 counterexample: with surrounding whitespace on the upstream text,
the explanation is the trimmed text, not the full original text the claim
requires. -/
theorem parse_failure_soft_cex :
    jsonMatch0 (jsTrim (" x \x7b\"recommendations\"\x7d ".data)) =
      some ("\x7b\"recommendations\"\x7d".data) ∧
    jsonParse (jsTrim (stripFences ("\x7b\"recommendations\"\x7d".data))) = none ∧
    (shapeResponse (" x \x7b\"recommendations\"\x7d ".data)).explanation ≠
      " x \x7b\"recommendations\"\x7d ".data :=
  ⟨rfl, rfl, by decide⟩

/-- The pattern survives appending on the right. -/
theorem hasPattern_append_right (s b : List Char) (h : HasPattern s) :
    HasPattern (s ++ b) := by
  obtain ⟨i, j, k, hi, hij, hj, hjk, hk⟩ := h
  have hklen : k < s.length := (List.getElem?_eq_some.mp hk).1
  have hjlen : j ≤ s.length := by
    have h17 : 17 ≤ (s.drop j).length := by
      have := hj.length_le
      simpa [recsKey] using this
    rw [List.length_drop] at h17
    omega
  refine ⟨i, j, k, ?_, hij, ?_, hjk, ?_⟩
  · rw [List.getElem?_append_left (by omega)]
    exact hi
  · rw [List.drop_append_of_le_length hjlen]
    exact hj.trans (List.prefix_append _ _)
  · rw [List.getElem?_append_left (by omega)]
    exact hk

/-- The pattern survives prepending on the left. -/
theorem hasPattern_append_left (a s : List Char) (h : HasPattern s) :
    HasPattern (a ++ s) := by
  obtain ⟨i, j, k, hi, hij, hj, hjk, hk⟩ := h
  refine ⟨a.length + i, a.length + j, a.length + k, ?_, by omega, ?_, by omega, ?_⟩
  · rw [List.getElem?_append_right (by omega)]
    simpa using hi
  · rw [List.drop_append]
    exact hj
  · rw [List.getElem?_append_right (by omega)]
    simpa using hk

/-- The pattern survives any infix extension. -/
theorem hasPattern_infix (s t : List Char) (hinf : t <:+: s)
    (h : HasPattern t) : HasPattern s := by
  obtain ⟨u, v, huv⟩ := hinf
  rw [← huv, List.append_assoc]
  exact hasPattern_append_left u _ (hasPattern_append_right t v h)

/-- The trimmed text is an infix of the text. -/
theorem jsTrim_infix (s : List Char) : jsTrim s <:+: s := by
  have h1 : jsTrim s <:+ trimRight s := List.dropWhile_suffix _
  have h2 : trimRight s <+: s := by
    have h3 : trimRight s <+: s.reverse.reverse := by
      rw [← List.reverse_reverse (trimRight s)]
      rw [List.reverse_prefix]
      simpa [trimRight] using List.dropWhile_suffix (l := s.reverse) isJsWs
    simpa using h3
  exact h1.isInfix.trans h2.isInfix

/-- C2: when the upstream reply text holds no substring matching the
pattern, the 200 response of the pricing handler carries no
recommendations, the empty summary, and the full upstream text trimmed as
its explanation. -/
theorem no_pattern_passthrough (env : Option (List Char)) (body : List Char)
    (up : List JsMsg → Upstream) (bv : JVal) (opts : JElems) (summ : List Char)
    (data : JVal) (raw : List Char)
    (hb : jsonParse body = some bv) (hnn : bv ≠ .jnull)
    (henv : envTruthy env = true)
    (hum : jsTruthyOpt (jsGetField bv ("userMessage".data)) = true)
    (hopts : jsGetField bv ("options".data) = some (.jarr opts))
    (hsum : optionsSummaryE opts = some summ)
    (hch : historyMode (jsGetField bv ("conversationHistory".data)) ≠ .badHistory)
    (hup : ∀ ms, up ms = .succeeds data)
    (hex : extractText data = some raw)
    (hpat : ¬HasPattern raw) :
    pricingHandler env postMethod body up =
      ⟨200, .pricingOk (jsTrim raw) none (.jstr [])⟩ := by
  have hnomatch : matchStartAux (jsTrim raw) = none := by
    cases hms : matchStartAux (jsTrim raw) with
    | none => rfl
    | some i =>
      exfalso
      apply hpat
      apply hasPattern_infix raw (jsTrim raw) ( jsTrim_infix raw)
      rw [hasPattern_iff, hms]
      rfl
  have hshape : shapeResponse raw = ⟨jsTrim raw, none, .jstr []⟩ := by
    apply shapeResponse_no_match
    simp only [jsonMatch0, matchSpan, hnomatch, Option.map_none']
  have htro : jsTruthyOpt (jsGetField bv ("options".data)) = true := by
    rw [hopts]; rfl
  have hja : jsTruthyOpt (some (JVal.jarr opts)) = true := rfl
  cases h : historyMode (jsGetField bv ("conversationHistory".data)) with
  | badHistory => exact absurd h hch
  | noHistory =>
    simp [pricingHandler, hb, hnn, henv, hum, hopts, htro, hja, hsum, h, hup,
      hex, hshape]
  | follow es =>
    simp [pricingHandler, hb, hnn, henv, hum, hopts, htro, hja, hsum, h, hup,
      hex, hshape]

/-- Witness for C2 at a pattern-free upstream text with surrounding
whitespace. -/
theorem no_pattern_passthrough_witness :
    extractText (.jobj (.cons ("content".data)
      (.jarr (.cons (.jobj (.cons ("text".data)
        (.jstr (" plain advice ".data)) .nil)) .nil)) .nil)) =
      some (" plain advice ".data) ∧
    ¬HasPattern (" plain advice ".data) ∧
    pricingHandler (some ("k".data)) postMethod
      ("\x7b\"userMessage\":\"x\",\"options\":[]\x7d".data)
      (fun _ => .succeeds (.jobj (.cons ("content".data)
        (.jarr (.cons (.jobj (.cons ("text".data)
          (.jstr (" plain advice ".data)) .nil)) .nil)) .nil))) =
      ⟨200, .pricingOk ("plain advice".data) none (.jstr [])⟩ := by
  have hnp : ¬HasPattern (" plain advice ".data) := by
    rw [hasPattern_iff]
    decide
  exact ⟨rfl, hnp,
    no_pattern_passthrough (some ("k".data))
      ("\x7b\"userMessage\":\"x\",\"options\":[]\x7d".data)
      (fun _ => .succeeds (.jobj (.cons ("content".data)
        (.jarr (.cons (.jobj (.cons ("text".data)
          (.jstr (" plain advice ".data)) .nil)) .nil)) .nil)))
      (.jobj (.cons ("userMessage".data) (.jstr ['x'])
        (.cons ("options".data) (.jarr .nil) .nil))) .nil []
      (.jobj (.cons ("content".data)
        (.jarr (.cons (.jobj (.cons ("text".data)
          (.jstr (" plain advice ".data)) .nil)) .nil)) .nil))
      (" plain advice ".data)
      rfl (by decide) rfl rfl rfl rfl (by decide) (fun _ => rfl) rfl hnp⟩

/-! ## Lemmas for the serializer round trip -/

/-- Scalar values are determined by their code points. -/
theorem char_toNat_inj {a b : Char} (h : a.toNat = b.toNat) : a = b := by
  have ha := Char.ofNat_toNat a
  rw [← ha, h, Char.ofNat_toNat]

/-- Code point of a packed valid code point below the surrogate range. -/
theorem toNat_ofNat_valid (n : Nat) (h : n < 0xd800) :
    (Char.ofNat n).toNat = n := by
  have hv : Nat.isValidChar n := Or.inl h
  simp only [Char.ofNat, dif_pos hv, Char.toNat, Char.ofNatAux]
  simp [UInt32.toNat, BitVec.toNat_ofNatLt]

/-- The emitted hexadecimal digit is a hexadecimal digit. -/
theorem isHexDigitC_hexDigitChar (n : Nat) (h : n < 16) :
    isHexDigitC (hexDigitChar n) = true := by
  unfold hexDigitChar
  by_cases h10 : n < 10
  · rw [if_pos h10]
    simp only [isHexDigitC, isDigitC]
    rw [toNat_ofNat_valid (48 + n) (by omega)]
    simp only [Bool.or_eq_true, Bool.and_eq_true, decide_eq_true_eq]
    omega
  · rw [if_neg h10]
    simp only [isHexDigitC, isDigitC]
    rw [toNat_ofNat_valid (87 + n) (by omega)]
    simp only [Bool.or_eq_true, Bool.and_eq_true, decide_eq_true_eq]
    omega

/-- Value of the emitted hexadecimal digit. -/
theorem hexVal_hexDigitChar (n : Nat) (h : n < 16) :
    hexVal (hexDigitChar n) = n := by
  unfold hexDigitChar hexVal
  by_cases h10 : n < 10
  · rw [if_pos h10]
    have ht : (Char.ofNat (48 + n)).toNat = 48 + n := toNat_ofNat_valid _ (by omega)
    have hd : isDigitC (Char.ofNat (48 + n)) = true := by
      simp only [isDigitC, ht, Bool.and_eq_true, decide_eq_true_eq]
      omega
    rw [if_pos hd, ht]
    omega
  · rw [if_neg h10]
    have ht : (Char.ofNat (87 + n)).toNat = 87 + n := toNat_ofNat_valid _ (by omega)
    have hd : ¬(isDigitC (Char.ofNat (87 + n)) = true) := by
      simp only [isDigitC, ht, Bool.and_eq_true, decide_eq_true_eq]
      omega
    have hr : (97 ≤ (Char.ofNat (87 + n)).toNat && (Char.ofNat (87 + n)).toNat ≤ 102) = true := by
      simp only [ht, Bool.and_eq_true, decide_eq_true_eq]
      omega
    rw [if_neg hd, if_pos hr, ht]
    omega



/-- Unfolding of the string parser on an ordinary character. -/
theorem psb_plain (fuel : Nat) (c : Char) (t : List Char) (h1 : c ≠ '"')
    (h2 : c ≠ '\\') (h3 : ¬c.toNat < 0x20) :
    parseStringBody (fuel + 1) (c :: t) =
      (parseStringBody fuel t).map fun p => (c :: p.1, p.2) := by
  simp only [parseStringBody]
  rw [if_neg h1, if_neg h2, if_neg h3]

/-- Unfolding of the string parser on a two-character escape. -/
theorem psb_esc (fuel : Nat) (e y : Char) (t : List Char)
    (h : (e = '"' ∧ y = '"') ∨ (e = '\\' ∧ y = '\\') ∨ (e = '/' ∧ y = '/') ∨
      (e = 'b' ∧ y = '\x08') ∨ (e = 'f' ∧ y = '\x0c') ∨ (e = 'n' ∧ y = '\n') ∨
      (e = 'r' ∧ y = '\r') ∨ (e = 't' ∧ y = '\t')) :
    parseStringBody (fuel + 1) ('\\' :: e :: t) =
      (parseStringBody fuel t).map fun p => (y :: p.1, p.2) := by
  rcases h with ⟨he, hy⟩ | ⟨he, hy⟩ | ⟨he, hy⟩ | ⟨he, hy⟩ | ⟨he, hy⟩ | ⟨he, hy⟩ |
    ⟨he, hy⟩ | ⟨he, hy⟩ <;> subst he <;> subst hy <;> rfl

/-- Unfolding of the string parser on a `\u00xy` control escape. -/
theorem psb_unicode (fuel : Nat) (c : Char) (t : List Char)
    (hlt : c.toNat < 0x20) :
    parseStringBody (fuel + 1) ('\\' :: 'u' :: '0' :: '0' ::
        hexDigitChar (c.toNat / 16) :: hexDigitChar (c.toNat % 16) :: t) =
      (parseStringBody fuel t).map fun p => (c :: p.1, p.2) := by
  have h16a : c.toNat / 16 < 16 := by omega
  have h16b : c.toNat % 16 < 16 := by omega
  have hhex1 : isHexDigitC (hexDigitChar (c.toNat / 16)) = true :=
    isHexDigitC_hexDigitChar _ h16a
  have hhex2 : isHexDigitC (hexDigitChar (c.toNat % 16)) = true :=
    isHexDigitC_hexDigitChar _ h16b
  have hval : hexVal4 '0' '0' (hexDigitChar (c.toNat / 16))
      (hexDigitChar (c.toNat % 16)) = c.toNat := by
    simp only [hexVal4, hexVal_hexDigitChar _ h16a, hexVal_hexDigitChar _ h16b]
    have h0 : hexVal '0' = 0 := rfl
    rw [h0]
    omega
  simp only [parseStringBody, hhex1, hhex2, hval]
  simp only [show isHexDigitC '0' = true from rfl]
  simp only [if_true, if_false]
  simp
  intro h1 h2
  omega

/-- Reading back an escaped string yields the string, leaving the input
after the closing quote. -/
theorem parseStringBody_escape (s : List Char) :
    ∀ (rest : List Char) (fuel : Nat), s.length < fuel →
    parseStringBody fuel (s.flatMap escChar ++ '"' :: rest) = some (s, rest) := by
  induction s with
  | nil =>
    intro rest fuel hf
    cases fuel with
    | zero => omega
    | succ f => simp [parseStringBody]
  | cons c cs ih =>
    intro rest fuel hf
    cases fuel with
    | zero => omega
    | succ f =>
      rw [List.flatMap_cons, List.append_assoc]
      have hih := ih rest f (by simp at hf; omega)
      by_cases h1 : c = '"'
      · subst h1
        show parseStringBody (f + 1)
          ('\\' :: '"' :: (cs.flatMap escChar ++ '"' :: rest)) = _
        rw [psb_esc f _ _ _ (Or.inl ⟨rfl, rfl⟩), hih]
        rfl
      · by_cases h2 : c = '\\'
        · subst h2
          show parseStringBody (f + 1)
            ('\\' :: '\\' :: (cs.flatMap escChar ++ '"' :: rest)) = _
          rw [psb_esc f _ _ _ (Or.inr (Or.inl ⟨rfl, rfl⟩)), hih]
          rfl
        · by_cases h3 : c = '\x08'
          · subst h3
            show parseStringBody (f + 1)
              ('\\' :: 'b' :: (cs.flatMap escChar ++ '"' :: rest)) = _
            rw [psb_esc f _ _ _
              (Or.inr (Or.inr (Or.inr (Or.inl ⟨rfl, rfl⟩)))), hih]
            rfl
          · by_cases h4 : c = '\x0c'
            · subst h4
              show parseStringBody (f + 1)
                ('\\' :: 'f' :: (cs.flatMap escChar ++ '"' :: rest)) = _
              rw [psb_esc f _ _ _
                (Or.inr (Or.inr (Or.inr (Or.inr (Or.inl ⟨rfl, rfl⟩))))), hih]
              rfl
            · by_cases h5 : c = '\n'
              · subst h5
                show parseStringBody (f + 1)
                  ('\\' :: 'n' :: (cs.flatMap escChar ++ '"' :: rest)) = _
                rw [psb_esc f _ _ _
                  (Or.inr (Or.inr (Or.inr (Or.inr (Or.inr
                    (Or.inl ⟨rfl, rfl⟩)))))), hih]
                rfl
              · by_cases h6 : c = '\r'
                · subst h6
                  show parseStringBody (f + 1)
                    ('\\' :: 'r' :: (cs.flatMap escChar ++ '"' :: rest)) = _
                  rw [psb_esc f _ _ _
                    (Or.inr (Or.inr (Or.inr (Or.inr (Or.inr (Or.inr
                      (Or.inl ⟨rfl, rfl⟩))))))), hih]
                  rfl
                · by_cases h7 : c = '\t'
                  · subst h7
                    show parseStringBody (f + 1)
                      ('\\' :: 't' :: (cs.flatMap escChar ++ '"' :: rest)) = _
                    rw [psb_esc f _ _ _
                      (Or.inr (Or.inr (Or.inr (Or.inr (Or.inr (Or.inr (Or.inr
                        ⟨rfl, rfl⟩))))))), hih]
                    rfl
                  · by_cases h8 : c.toNat < 0x20
                    · have hesc : escChar c = '\\' :: 'u' :: '0' :: '0' ::
                          hexDigitChar (c.toNat / 16) ::
                          [hexDigitChar (c.toNat % 16)] := by
                        rw [escChar, if_neg h1, if_neg h2, if_neg h3, if_neg h4,
                          if_neg h5, if_neg h6, if_neg h7, if_pos h8]
                      rw [hesc]
                      show parseStringBody (f + 1)
                        ('\\' :: 'u' :: '0' :: '0' :: hexDigitChar (c.toNat / 16) ::
                          hexDigitChar (c.toNat % 16) ::
                          (cs.flatMap escChar ++ '"' :: rest)) = _
                      rw [psb_unicode f c _ h8, hih]
                      rfl
                    · have hesc : escChar c = [c] := by
                        rw [escChar, if_neg h1, if_neg h2, if_neg h3, if_neg h4,
                          if_neg h5, if_neg h6, if_neg h7, if_neg h8]
                      rw [hesc]
                      show parseStringBody (f + 1)
                        (c :: (cs.flatMap escChar ++ '"' :: rest)) = _
                      rw [psb_plain f c _ h1 h2 h8, hih]
                      rfl

/-- The first element dropped by `dropWhile` fails the predicate. -/
theorem dropWhile_head_false {p : Char → Bool} {l : List Char} {x : Char}
    {t : List Char} (h : l.dropWhile p = x :: t) : p x = false := by
  induction l with
  | nil => cases h
  | cons a as ih =>
    by_cases hp : p a = true
    · rw [List.dropWhile_cons_of_pos hp] at h
      exact ih h
    · rw [List.dropWhile_cons_of_neg hp] at h
      cases h
      exact Bool.not_eq_true _ |>.mp hp

/-- `span` on digits followed by a non-digit splits at the boundary. -/
theorem span_digits (ds r : List Char) (hds : ∀ c ∈ ds, isDigitC c = true)
    (hr : HeadNotDigit r) : (ds ++ r).span isDigitC = (ds, r) := by
  rw [List.span_eq_take_drop]
  induction ds with
  | nil =>
    simp only [List.nil_append]
    cases r with
    | nil => simp
    | cons x t =>
      rw [List.takeWhile_cons_of_neg, List.dropWhile_cons_of_neg]
      · simp [hr x t rfl]
      · simp [hr x t rfl]
  | cons d ds' ih =>
    have hd : isDigitC d = true := hds d (by simp)
    simp only [List.cons_append]
    rw [List.takeWhile_cons_of_pos hd, List.dropWhile_cons_of_pos hd]
    have := ih (fun c hc => hds c (by simp [hc]))
    rw [Prod.mk.injEq] at this
    simp [this.1, this.2]

/-- Inversion of `span` on digits: the parts reassemble the input, the
first part is all digits and the second starts with a non-digit. -/
theorem span_inv (r : List Char) :
    r = (r.span isDigitC).1 ++ (r.span isDigitC).2 ∧
    (∀ c ∈ (r.span isDigitC).1, isDigitC c = true) ∧
    HeadNotDigit (r.span isDigitC).2 := by
  rw [List.span_eq_take_drop]
  refine ⟨(List.takeWhile_append_dropWhile isDigitC r).symm, ?_, ?_⟩
  · intro c hc
    exact List.mem_takeWhile_imp hc
  · intro c t ht
    exact dropWhile_head_false ht

/-- A digit is none of the structural characters of the JSON grammar. -/
theorem digit_ne (c : Char) (h : isDigitC c = true) :
    c ≠ '-' ∧ c ≠ '.' ∧ c ≠ '+' ∧ c ≠ 'e' ∧ c ≠ 'E' := by
  refine ⟨?_, ?_, ?_, ?_, ?_⟩ <;> rintro rfl <;> simp [isDigitC] at h

/-- Inversion of the integer lexer. -/
theorem lexInt_inv (s i r : List Char) (h : lexInt s = some (i, r)) :
    s = i ++ r ∧
    (i = ['0'] ∨ ∃ c ds, i = c :: ds ∧ isDigitC c = true ∧ c ≠ '0' ∧
      (∀ x ∈ ds, isDigitC x = true) ∧ HeadNotDigit r) := by
  cases s with
  | nil => cases h
  | cons c r0 =>
    simp only [lexInt] at h
    by_cases h0 : c = '0'
    · rw [if_pos h0] at h
      cases h
      subst h0
      exact ⟨rfl, Or.inl rfl⟩
    · rw [if_neg h0] at h
      by_cases hd : isDigitC c = true
      · rw [if_pos hd] at h
        cases h
        obtain ⟨heq, hall, hhead⟩ := span_inv r0
        refine ⟨by rw [List.cons_append, ← heq], Or.inr ⟨c, _, rfl, hd, h0, hall, hhead⟩⟩
      · rw [if_neg hd] at h
        cases h

/-- Restart of the integer lexer on its own output. -/
theorem lexInt_restart (i X : List Char)
    (hshape : i = ['0'] ∨ ∃ c ds, i = c :: ds ∧ isDigitC c = true ∧ c ≠ '0' ∧
      (∀ x ∈ ds, isDigitC x = true))
    (hX : HeadNotDigit X) :
    lexInt (i ++ X) = some (i, X) := by
  rcases hshape with rfl | ⟨c, ds, rfl, hd, h0, hds⟩
  · simp [lexInt]
  · simp only [List.cons_append, lexInt]
    rw [if_neg h0, if_pos hd]
    rw [span_digits ds X hds hX]

/-- The fraction lexer skips input that does not start with a dot. -/
theorem lexFrac_skip (s : List Char) (h : ∀ c t, s = c :: t → c ≠ '.') :
    lexFrac s = ([], s) := by
  cases s with
  | nil => rfl
  | cons c t =>
    simp only [lexFrac]
    rw [if_neg (h c t rfl)]

/-- The fraction lexer takes a dot and its digits. -/
theorem lexFrac_dot (ds X : List Char) (hne : ds ≠ [])
    (hds : ∀ x ∈ ds, isDigitC x = true) (hX : HeadNotDigit X) :
    lexFrac ('.' :: (ds ++ X)) = ('.' :: ds, X) := by
  simp only [lexFrac, if_true]
  rw [span_digits ds X hds hX]
  simp [hne]

/-- Inversion of the fraction lexer. -/
theorem lexFrac_inv (s : List Char) :
    s = (lexFrac s).1 ++ (lexFrac s).2 ∧
    ((lexFrac s).1 = [] ∨ ∃ ds, ds ≠ [] ∧ (lexFrac s).1 = '.' :: ds ∧
      (∀ x ∈ ds, isDigitC x = true) ∧ HeadNotDigit (lexFrac s).2) := by
  cases s with
  | nil => exact ⟨rfl, Or.inl rfl⟩
  | cons c r =>
    simp only [lexFrac]
    by_cases hc : c = '.'
    · rw [if_pos hc]
      obtain ⟨heq, hall, hhead⟩ := span_inv r
      by_cases he : (r.span isDigitC).1 = []
      · rw [if_pos he]
        exact ⟨rfl, Or.inl rfl⟩
      · rw [if_neg he]
        subst hc
        refine ⟨?_, Or.inr ⟨(r.span isDigitC).1, he, rfl, hall, hhead⟩⟩
        rw [List.cons_append, ← heq]
    · rw [if_neg hc]
      exact ⟨rfl, Or.inl rfl⟩

/-- The exponent lexer skips input that does not start with an exponent
letter. -/
theorem lexExp_skip (s : List Char)
    (h : ∀ c t, s = c :: t → c ≠ 'e' ∧ c ≠ 'E') :
    lexExp s = ([], s) := by
  cases s with
  | nil => rfl
  | cons c t =>
    simp only [lexExp]
    rw [if_neg]
    simp only [Bool.or_eq_true, decide_eq_true_eq]
    rintro (rfl | rfl)
    · exact (h _ t rfl).1 rfl
    · exact (h _ t rfl).2 rfl

/-- The exponent lexer takes the letter, an optional sign and the
digits. -/
theorem lexExp_go (e : Char) (sg ds X : List Char)
    (he : e = 'e' ∨ e = 'E') (hsg : sg = [] ∨ sg = ['+'] ∨ sg = ['-'])
    (hne : ds ≠ []) (hds : ∀ x ∈ ds, isDigitC x = true)
    (hX : HeadNotDigit X) :
    lexExp (e :: (sg ++ ds ++ X)) = (e :: (sg ++ ds), X) := by
  have hee : (e = 'e' || e = 'E') = true := by
    rcases he with rfl | rfl <;> simp
  rcases hsg with rfl | rfl | rfl
  · cases ds with
    | nil => exact absurd rfl hne
    | cons d ds' =>
      have hd : isDigitC d = true := hds d (by simp)
      simp only [List.nil_append, List.cons_append, lexExp, lexExpAfterE]
      rw [if_pos hee]
      rw [if_neg]
      · rw [show d :: (ds' ++ X) = (d :: ds') ++ X from rfl]
        rw [span_digits _ X hds hX]
        simp
      · simp only [Bool.or_eq_true, decide_eq_true_eq]
        rintro (rfl | rfl) <;> simp [isDigitC] at hd
  · cases ds with
    | nil => exact absurd rfl hne
    | cons d ds' =>
      simp only [List.cons_append, List.nil_append, lexExp, lexExpAfterE]
      rw [if_pos hee, if_pos (by simp)]
      rw [show d :: (ds' ++ X) = (d :: ds') ++ X from rfl]
      rw [span_digits _ X hds hX]
      simp [hne]
  · cases ds with
    | nil => exact absurd rfl hne
    | cons d ds' =>
      simp only [List.cons_append, List.nil_append, lexExp, lexExpAfterE]
      rw [if_pos hee, if_pos (by simp)]
      rw [show d :: (ds' ++ X) = (d :: ds') ++ X from rfl]
      rw [span_digits _ X hds hX]
      simp [hne]

/-- Inversion of the exponent lexer. -/
theorem lexExp_inv (s : List Char) :
    s = (lexExp s).1 ++ (lexExp s).2 ∧
    ((lexExp s).1 = [] ∨ ∃ e sg ds, (lexExp s).1 = e :: (sg ++ ds) ∧
      (e = 'e' ∨ e = 'E') ∧ (sg = [] ∨ sg = ['+'] ∨ sg = ['-']) ∧ ds ≠ [] ∧
      (∀ x ∈ ds, isDigitC x = true) ∧ HeadNotDigit (lexExp s).2) := by
  cases s with
  | nil => exact ⟨rfl, Or.inl rfl⟩
  | cons c r =>
    simp only [lexExp]
    by_cases hc : (c = 'e' || c = 'E') = true
    · rw [if_pos hc]
      simp only [Bool.or_eq_true, decide_eq_true_eq] at hc
      cases r with
      | nil => exact ⟨rfl, Or.inl rfl⟩
      | cons d r1 =>
        simp only [lexExpAfterE]
        by_cases hd : (d = '+' || d = '-') = true
        · rw [if_pos hd]
          by_cases hp : (r1.span isDigitC).1 = []
          · rw [if_pos hp]
            exact ⟨rfl, Or.inl rfl⟩
          · rw [if_neg hp]
            obtain ⟨heq, hall, hhead⟩ := span_inv r1
            simp only [Bool.or_eq_true, decide_eq_true_eq] at hd
            refine ⟨?_, Or.inr ⟨c, [d], (r1.span isDigitC).1, by simp, hc,
              by rcases hd with rfl | rfl <;> simp, hp, hall, hhead⟩⟩
            simp only [List.cons_append]
            rw [← heq]
        · rw [if_neg hd]
          by_cases hp : ((d :: r1).span isDigitC).1 = []
          · rw [if_pos hp]
            exact ⟨rfl, Or.inl rfl⟩
          · rw [if_neg hp]
            obtain ⟨heq, hall, hhead⟩ := span_inv (d :: r1)
            refine ⟨?_, Or.inr ⟨c, [], ((d :: r1).span isDigitC).1, by simp, hc,
              by simp, hp, hall, hhead⟩⟩
            simp only [List.cons_append, List.nil_append]
            rw [← heq]
    · rw [if_neg hc]
      exact ⟨rfl, Or.inl rfl⟩

/-- The number lexer on a decomposed token followed by a non-extending
rest consumes exactly the token. -/
theorem lexNumber_core (sign ip fp xp X : List Char)
    (hsign : sign = [] ∨ sign = ['-'])
    (hip : ip = ['0'] ∨ ∃ c ds, ip = c :: ds ∧ isDigitC c = true ∧ c ≠ '0' ∧
      (∀ x ∈ ds, isDigitC x = true))
    (hfp : fp = [] ∨ ∃ ds, ds ≠ [] ∧ fp = '.' :: ds ∧
      (∀ x ∈ ds, isDigitC x = true))
    (hxp : xp = [] ∨ ∃ e sg ds, xp = e :: (sg ++ ds) ∧
      (e = 'e' ∨ e = 'E') ∧ (sg = [] ∨ sg = ['+'] ∨ sg = ['-']) ∧ ds ≠ [] ∧
      (∀ x ∈ ds, isDigitC x = true))
    (hX : NonNumHead X) :
    lexNumber (sign ++ ip ++ fp ++ xp ++ X) =
      some (sign ++ ip ++ fp ++ xp, X) := by
  have hXnd : HeadNotDigit X := fun c t ht => (hX c t ht).1
  have hxpX : HeadNotDigit (xp ++ X) := by
    rcases hxp with rfl | ⟨e, sg, ds, rfl, he, _, _, _⟩
    · simpa using hXnd
    · intro c t ht
      simp only [List.cons_append] at ht
      injection ht with h1 _
      subst h1
      rcases he with rfl | rfl <;> simp [isDigitC]
  have hfpxpX : HeadNotDigit (fp ++ (xp ++ X)) := by
    rcases hfp with rfl | ⟨ds, _, rfl, _⟩
    · simpa using hxpX
    · intro c t ht
      simp only [List.cons_append] at ht
      injection ht with h1 _
      subst h1
      simp [isDigitC]
  have hIntStep : lexInt (ip ++ (fp ++ (xp ++ X))) = some (ip, fp ++ (xp ++ X)) :=
    lexInt_restart ip (fp ++ (xp ++ X)) (by tauto) hfpxpX
  have hFracStep : lexFrac (fp ++ (xp ++ X)) = (fp, xp ++ X) := by
    rcases hfp with rfl | ⟨ds, hne, rfl, hds⟩
    · rw [List.nil_append]
      apply lexFrac_skip
      intro c t ht
      rcases hxp with rfl | ⟨e, sg, ds, hx, he, _, _, _⟩
      · rw [List.nil_append] at ht
        exact (hX _ _ ht).2.1
      · rw [hx, List.cons_append] at ht
        injection ht with h1 _
        subst h1
        rcases he with rfl | rfl <;> decide
    · rw [List.cons_append]
      exact lexFrac_dot ds (xp ++ X) hne hds hxpX
  have hExpStep : lexExp (xp ++ X) = (xp, X) := by
    rcases hxp with rfl | ⟨e, sg, ds, rfl, he, hsg, hne, hds⟩
    · rw [List.nil_append]
      apply lexExp_skip
      intro c t ht
      exact ⟨(hX _ _ ht).2.2.1, (hX _ _ ht).2.2.2⟩
    · rw [List.cons_append, List.append_assoc]
      have := lexExp_go e sg ds X he hsg hne hds hXnd
      rw [List.append_assoc] at this
      exact this
  simp only [List.append_assoc]
  rcases hsign with rfl | rfl
  · simp only [List.nil_append]
    rcases hip with rfl | ⟨c0, ds0, rfl, hd0, h00, hds0⟩
    · show lexNumber ('0' :: ([] ++ (fp ++ (xp ++ X)))) = _
      simp only [List.nil_append, lexNumber]
      rw [if_neg (by decide : ¬('0' : Char) = '-')]
      rw [show '0' :: (fp ++ (xp ++ X)) = ['0'] ++ (fp ++ (xp ++ X)) from rfl]
      rw [hIntStep]
      simp only [Option.map_some']
      rw [hFracStep, hExpStep]
      simp [List.append_assoc]
    · show lexNumber (c0 :: (ds0 ++ (fp ++ (xp ++ X)))) = _
      simp only [lexNumber]
      rw [if_neg (digit_ne c0 hd0).1]
      rw [show c0 :: (ds0 ++ (fp ++ (xp ++ X))) = (c0 :: ds0) ++ (fp ++ (xp ++ X))
        from rfl]
      rw [hIntStep]
      simp only [Option.map_some']
      rw [hFracStep, hExpStep]
      simp [List.append_assoc]
  · show lexNumber ('-' :: (ip ++ (fp ++ (xp ++ X)))) = _
    simp only [lexNumber]
    rw [if_pos (by trivial)]
    rw [hIntStep]
    simp only [Option.map_some']
    rw [hFracStep, hExpStep]
    simp [List.append_assoc]

/-- Decomposition of a lexed number token into sign, integer, fraction
and exponent parts of the right shapes. -/
theorem lexNumber_inv (s lex r : List Char)
    (h : lexNumber s = some (lex, r)) :
    ∃ sign ip fp xp, lex = sign ++ ip ++ fp ++ xp ∧
      (sign = [] ∨ sign = ['-']) ∧
      (ip = ['0'] ∨ ∃ c ds, ip = c :: ds ∧ isDigitC c = true ∧ c ≠ '0' ∧
        (∀ x ∈ ds, isDigitC x = true)) ∧
      (fp = [] ∨ ∃ ds, ds ≠ [] ∧ fp = '.' :: ds ∧
        (∀ x ∈ ds, isDigitC x = true)) ∧
      (xp = [] ∨ ∃ e sg ds, xp = e :: (sg ++ ds) ∧
        (e = 'e' ∨ e = 'E') ∧ (sg = [] ∨ sg = ['+'] ∨ sg = ['-']) ∧ ds ≠ [] ∧
        (∀ x ∈ ds, isDigitC x = true)) := by
  cases s with
  | nil => cases h
  | cons c r0 =>
    simp only [lexNumber] at h
    by_cases hc : c = '-'
    · rw [if_pos hc] at h
      obtain ⟨p, hp, hf⟩ := Option.map_eq_some'.mp h
      obtain ⟨hi1, hi2⟩ := lexInt_inv r0 p.1 p.2 hp
      obtain ⟨hf1, hf2⟩ := lexFrac_inv p.2
      obtain ⟨hx1, hx2⟩ := lexExp_inv (lexFrac p.2).2
      rw [Prod.mk.injEq] at hf
      refine ⟨['-'], p.1, (lexFrac p.2).1, (lexExp (lexFrac p.2).2).1,
        ?_, Or.inr rfl, ?_, ?_, ?_⟩
      · rw [← hf.1]
        simp [List.append_assoc]
      · rcases hi2 with h0 | ⟨cc, ds, hceq, hcd, hc0, hcds, _⟩
        · exact Or.inl h0
        · exact Or.inr ⟨cc, ds, hceq, hcd, hc0, hcds⟩
      · rcases hf2 with h0 | ⟨ds, hne, hdeq, hds, _⟩
        · exact Or.inl h0
        · exact Or.inr ⟨ds, hne, hdeq, hds⟩
      · rcases hx2 with h0 | ⟨e, sg, ds, heq, he, hsg, hne, hds, _⟩
        · exact Or.inl h0
        · exact Or.inr ⟨e, sg, ds, heq, he, hsg, hne, hds⟩
    · rw [if_neg hc] at h
      obtain ⟨p, hp, hf⟩ := Option.map_eq_some'.mp h
      obtain ⟨hi1, hi2⟩ := lexInt_inv (c :: r0) p.1 p.2 hp
      obtain ⟨hf1, hf2⟩ := lexFrac_inv p.2
      obtain ⟨hx1, hx2⟩ := lexExp_inv (lexFrac p.2).2
      rw [Prod.mk.injEq] at hf
      refine ⟨[], p.1, (lexFrac p.2).1, (lexExp (lexFrac p.2).2).1,
        ?_, Or.inl rfl, ?_, ?_, ?_⟩
      · rw [← hf.1]
        simp [List.append_assoc]
      · rcases hi2 with h0 | ⟨cc, ds, hceq, hcd, hc0, hcds, _⟩
        · exact Or.inl h0
        · exact Or.inr ⟨cc, ds, hceq, hcd, hc0, hcds⟩
      · rcases hf2 with h0 | ⟨ds, hne, hdeq, hds, _⟩
        · exact Or.inl h0
        · exact Or.inr ⟨ds, hne, hdeq, hds⟩
      · rcases hx2 with h0 | ⟨e, sg, ds, heq, he, hsg, hne, hds, _⟩
        · exact Or.inl h0
        · exact Or.inr ⟨e, sg, ds, heq, he, hsg, hne, hds⟩

/-- A lexed token re-lexes to itself with an empty remainder. -/
theorem lexNumber_self (s lex r : List Char)
    (h : lexNumber s = some (lex, r)) :
    lexNumber lex = some (lex, []) := by
  obtain ⟨sign, ip, fp, xp, heq, hs, hi, hf, hx⟩ := lexNumber_inv s lex r h
  subst heq
  have := lexNumber_core sign ip fp xp [] hs hi hf hx
    (by intro c t ht; cases ht)
  simpa using this

/-- A complete token followed by a non-extending rest lexes to the token
and the rest. -/
theorem lexNumber_restart (lex X : List Char)
    (h : lexNumber lex = some (lex, [])) (hX : NonNumHead X) :
    lexNumber (lex ++ X) = some (lex, X) := by
  obtain ⟨sign, ip, fp, xp, heq, hs, hi, hf, hx⟩ := lexNumber_inv lex lex [] h
  rw [heq]
  exact lexNumber_core sign ip fp xp X hs hi hf hx hX

/-- A lexed token starts with a minus or a digit. -/
theorem lexNumber_head (s lex r : List Char)
    (h : lexNumber s = some (lex, r)) :
    ∃ c t, lex = c :: t ∧ (c = '-' ∨ isDigitC c = true) := by
  obtain ⟨sign, ip, fp, xp, heq, hs, hi, hf, hx⟩ := lexNumber_inv s lex r h
  subst heq
  rcases hs with rfl | rfl
  · rcases hi with rfl | ⟨c, ds, rfl, hd, _, _⟩
    · exact ⟨'0', fp ++ xp, by simp, Or.inr (by decide)⟩
    · exact ⟨c, ds ++ (fp ++ xp), by simp, Or.inr hd⟩
  · exact ⟨'-', ip ++ (fp ++ xp), by simp, Or.inl rfl⟩

/-- Everything the parser returns is well formed: every number lexeme in
a parsed value re-lexes to itself. -/
theorem parse_wf (fuel : Nat) :
    (∀ s v r, parseVal fuel s = some (v, r) → wfVal v = true) ∧
    (∀ s es r, parseElems fuel s = some (es, r) → wfElems es = true) ∧
    (∀ s ms r, parseMembers fuel s = some (ms, r) → wfMembers ms = true) := by
  induction fuel with
  | zero =>
    refine ⟨?_, ?_, ?_⟩ <;> intro s v r h <;> cases h
  | succ f ih =>
    refine ⟨?_, ?_, ?_⟩
    · intro s v r h
      cases s with
      | nil => cases h
      | cons c s0 =>
        simp only [parseVal] at h
        by_cases h1 : c = 'n'
        · rw [if_pos h1] at h
          split at h
          · injection h with h'
            injection h' with hv _
            subst hv
            rfl
          · cases h
        · rw [if_neg h1] at h
          by_cases h2 : c = 't'
          · rw [if_pos h2] at h
            split at h
            · injection h with h'
              injection h' with hv _
              subst hv
              rfl
            · cases h
          · rw [if_neg h2] at h
            by_cases h3 : c = 'f'
            · rw [if_pos h3] at h
              split at h
              · injection h with h'
                injection h' with hv _
                subst hv
                rfl
              · cases h
            · rw [if_neg h3] at h
              by_cases h4 : c = '"'
              · rw [if_pos h4] at h
                obtain ⟨p, _, hf⟩ := Option.map_eq_some'.mp h
                injection hf with hv _
                subst hv
                rfl
              · rw [if_neg h4] at h
                by_cases h5 : c = '['
                · rw [if_pos h5] at h
                  split at h
                  · injection h with h'
                    injection h' with hv _
                    subst hv
                    rfl
                  · obtain ⟨p, hp, hf⟩ := Option.map_eq_some'.mp h
                    injection hf with hv _
                    subst hv
                    show wfElems p.1 = true
                    exact ih.2.1 _ p.1 p.2 hp
                · rw [if_neg h5] at h
                  by_cases h6 : c = '\x7b'
                  · rw [if_pos h6] at h
                    split at h
                    · injection h with h'
                      injection h' with hv _
                      subst hv
                      rfl
                    · obtain ⟨p, hp, hf⟩ := Option.map_eq_some'.mp h
                      injection hf with hv _
                      subst hv
                      show wfMembers p.1 = true
                      exact ih.2.2 _ p.1 p.2 hp
                  · rw [if_neg h6] at h
                    obtain ⟨p, hp, hf⟩ := Option.map_eq_some'.mp h
                    injection hf with hv _
                    subst hv
                    show wfVal (.jnum p.1) = true
                    simp only [wfVal, decide_eq_true_eq]
                    exact lexNumber_self _ _ _ hp
    · intro s es r h
      simp only [parseElems] at h
      split at h
      · cases h
      · rename_i v0 r0 heqv
        split at h
        · rename_i r2 heq2
          split at h
          · rename_i es3 r3 heq3
            injection h with h'
            injection h' with hv _
            subst hv
            have hwv : wfVal v0 = true := ih.1 _ v0 r0 heqv
            have hwe : wfElems es3 = true := ih.2.1 _ es3 r3 heq3
            simp [wfElems, hwv, hwe]
          · cases h
        · injection h with h'
          injection h' with hv _
          subst hv
          have hwv : wfVal v0 = true := ih.1 _ v0 r0 heqv
          simp [wfElems, hwv]
        · cases h
    · intro s ms r h
      simp only [parseMembers] at h
      split at h
      · rename_i k0 r1
        split at h
        · cases h
        · rename_i k1 q1 heq1
          split at h
          · rename_i r2 heq2
            split at h
            · cases h
            · rename_i v0 r3 heqv
              split at h
              · rename_i r4 heq4
                split at h
                · rename_i ms5 r5 heq5
                  injection h with h'
                  injection h' with hv _
                  subst hv
                  have hwv : wfVal v0 = true := ih.1 _ v0 r3 heqv
                  have hwm : wfMembers ms5 = true := ih.2.2 _ ms5 r5 heq5
                  simp [wfMembers, hwv, hwm]
                · cases h
              · injection h with h'
                injection h' with hv _
                subst hv
                have hwv : wfVal v0 = true := ih.1 _ v0 r3 heqv
                simp [wfMembers, hwv]
              · cases h
          · cases h
      · cases h

/-- A property looked up in a well-formed member list is well formed. -/
theorem wf_lookupLast : ∀ (k : List Char) (ms : JMembers) (v : JVal),
    wfMembers ms = true → lookupLast k ms = some v → wfVal v = true
  | _, .nil, _, _, h => by cases h
  | k, .cons k' v' ms', v, hwf, h => by
    simp only [wfMembers, Bool.and_eq_true] at hwf
    simp only [lookupLast] at h
    split at h
    · rename_i r heq
      injection h with hv
      subst hv
      exact wf_lookupLast k ms' r hwf.2 heq
    · split at h
      · injection h with hv
        subst hv
        exact hwf.1
      · cases h

/-- Everything `JSON.parse` returns is well formed. -/
theorem jsonParse_wf (s : List Char) (v : JVal) (h : jsonParse s = some v) :
    wfVal v = true := by
  simp only [jsonParse] at h
  split at h
  · rename_i v' r heq
    split at h
    · injection h with hv
      subst hv
      exact (parse_wf (s.length + 1)).1 _ v' r heq
    · cases h
  · cases h

/-- Every character escape is at least one character long. -/
theorem escChar_len (c : Char) : 1 ≤ (escChar c).length := by
  unfold escChar
  repeat' split
  all_goals simp

/-- Escaping cannot shorten a string. -/
theorem flatMap_escChar_len (s : List Char) :
    s.length ≤ (s.flatMap escChar).length := by
  induction s with
  | nil => simp
  | cons c t ih =>
    simp only [List.flatMap_cons, List.length_append, List.length_cons]
    have := escChar_len c
    omega

/-- A decimal digit is none of the JSON dispatch characters and is not
JSON whitespace. -/
theorem digitC_facts (c : Char) (h : isDigitC c = true) :
    c ≠ 'n' ∧ c ≠ 't' ∧ c ≠ 'f' ∧ c ≠ '"' ∧ c ≠ '[' ∧ c ≠ '\x7b' ∧
    c ≠ ']' ∧ isJsonWs c = false := by
  refine ⟨?_, ?_, ?_, ?_, ?_, ?_, ?_, ?_⟩
  · rintro rfl; exact absurd h (by decide)
  · rintro rfl; exact absurd h (by decide)
  · rintro rfl; exact absurd h (by decide)
  · rintro rfl; exact absurd h (by decide)
  · rintro rfl; exact absurd h (by decide)
  · rintro rfl; exact absurd h (by decide)
  · rintro rfl; exact absurd h (by decide)
  · cases hw : isJsonWs c
    · rfl
    · exfalso
      simp only [isJsonWs, Bool.or_eq_true, decide_eq_true_eq] at hw
      rcases hw with ((rfl | rfl) | rfl) | rfl <;> exact absurd h (by decide)

/-- The serialized form of a well-formed value starts with a character
that is not JSON whitespace and not a closing bracket. -/
theorem serialize_head (v : JVal) (hwf : wfVal v = true) :
    ∃ c t, serialize v = c :: t ∧ isJsonWs c = false ∧ c ≠ ']' := by
  cases v with
  | jnull => exact ⟨'n', ['u', 'l', 'l'], rfl, by decide, by decide⟩
  | jbool b =>
    cases b
    · exact ⟨'f', ['a', 'l', 's', 'e'], rfl, by decide, by decide⟩
    · exact ⟨'t', ['r', 'u', 'e'], rfl, by decide, by decide⟩
  | jnum lex =>
    simp only [wfVal, decide_eq_true_eq] at hwf
    obtain ⟨c, t, heq, hc⟩ := lexNumber_head lex lex [] hwf
    refine ⟨c, t, heq, ?_, ?_⟩
    · rcases hc with rfl | hd
      · decide
      · exact (digitC_facts c hd).2.2.2.2.2.2.2
    · rcases hc with rfl | hd
      · decide
      · exact (digitC_facts c hd).2.2.2.2.2.2.1
  | jstr s => exact ⟨'"', s.flatMap escChar ++ ['"'], rfl, by decide, by decide⟩
  | jarr es =>
    cases es with
    | nil => exact ⟨'[', [']'], rfl, by decide, by decide⟩
    | cons a b =>
      exact ⟨'[', serElems (.cons a b) ++ [']'], rfl, by decide, by decide⟩
  | jobj ms =>
    cases ms with
    | nil => exact ⟨'\x7b', ['\x7d'], rfl, by decide, by decide⟩
    | cons k a b =>
      exact ⟨'\x7b', serMembers (.cons k a b) ++ ['\x7d'], rfl, by decide,
        by decide⟩

/-- A list whose head cannot extend a number token. -/
theorem nonNumHead_of (c : Char) (r : List Char) (h1 : isDigitC c = false)
    (h2 : c ≠ '.') (h3 : c ≠ 'e') (h4 : c ≠ 'E') : NonNumHead (c :: r) := by
  intro c' t h
  injection h with hc ht
  subst hc
  exact ⟨h1, h2, h3, h4⟩

/-- Every value has at least one node. -/
theorem jsizeVal_pos (v : JVal) : 1 ≤ jsizeVal v := by
  cases v <;> simp [jsizeVal]

/-- A nonempty element list has at least one node. -/
theorem jsizeElems_pos (v : JVal) (es : JElems) :
    1 ≤ jsizeElems (.cons v es) := by
  simp only [jsizeElems]
  omega

/-- A nonempty member list has at least one node. -/
theorem jsizeMembers_pos (k : List Char) (v : JVal) (ms : JMembers) :
    1 ≤ jsizeMembers (.cons k v ms) := by
  simp only [jsizeMembers]
  omega

/-- `skipJsonWs` keeps a list whose head is not whitespace. -/
theorem skipJsonWs_cons (c : Char) (r : List Char) (h : isJsonWs c = false) :
    skipJsonWs (c :: r) = c :: r := by
  simp [skipJsonWs, List.dropWhile_cons, h]

/-- Unfolding of the value parser on an opening quote. -/
theorem parseVal_quote (f : Nat) (s0 : List Char) :
    parseVal (f + 1) ('"' :: s0) =
      (parseStringBody (s0.length + 1) s0).map fun p => (JVal.jstr p.1, p.2) :=
  rfl

/-- Unfolding of the value parser on an opening bracket whose inside does
not immediately close. -/
theorem parseVal_lbrack_elems (f : Nat) (s0 t0 : List Char) (c0 : Char)
    (h : skipJsonWs s0 = c0 :: t0) (hne : c0 ≠ ']') :
    parseVal (f + 1) ('[' :: s0) =
      (parseElems f (c0 :: t0)).map fun p => (JVal.jarr p.1, p.2) := by
  have h0 : parseVal (f + 1) ('[' :: s0) =
      match skipJsonWs s0 with
      | ']' :: rest => some (JVal.jarr JElems.nil, rest)
      | r2 => Option.map (fun p => (JVal.jarr p.1, p.2)) (parseElems f r2) :=
    rfl
  rw [h0, h]
  split
  · rename_i rest heq
    injection heq with hc ht
    exact absurd hc hne
  · rfl

/-- Unfolding of the value parser on an opening brace whose inside does
not immediately close. -/
theorem parseVal_lbrace_members (f : Nat) (s0 t0 : List Char) (c0 : Char)
    (h : skipJsonWs s0 = c0 :: t0) (hne : c0 ≠ '\x7d') :
    parseVal (f + 1) ('\x7b' :: s0) =
      (parseMembers f (c0 :: t0)).map fun p => (JVal.jobj p.1, p.2) := by
  have h0 : parseVal (f + 1) ('\x7b' :: s0) =
      match skipJsonWs s0 with
      | '\x7d' :: rest => some (JVal.jobj JMembers.nil, rest)
      | r2 => Option.map (fun p => (JVal.jobj p.1, p.2)) (parseMembers f r2) :=
    rfl
  rw [h0, h]
  split
  · rename_i rest heq
    injection heq with hc ht
    exact absurd hc hne
  · rfl

/-- One element followed by a closing bracket. -/
theorem parseElems_cons_last (f : Nat) (s r rest : List Char) (v : JVal)
    (hpv : parseVal f s = some (v, r)) (hr : skipJsonWs r = ']' :: rest) :
    parseElems (f + 1) s = some (.cons v .nil, rest) := by
  simp only [parseElems, hpv, hr]

/-- One element, a comma, and further elements. -/
theorem parseElems_cons_more (f : Nat) (s r rest r3 : List Char) (v : JVal)
    (es : JElems) (hpv : parseVal f s = some (v, r))
    (hr : skipJsonWs r = ',' :: rest)
    (hpe : parseElems f (skipJsonWs rest) = some (es, r3)) :
    parseElems (f + 1) s = some (.cons v es, r3) := by
  simp only [parseElems, hpv, hr, hpe]

/-- One member followed by a closing brace. -/
theorem parseMembers_cons_last (f : Nat) (r k r1 r2 r3 rest : List Char)
    (v : JVal) (hk : parseStringBody (r.length + 1) r = some (k, r1))
    (hc : skipJsonWs r1 = ':' :: r2)
    (hpv : parseVal f (skipJsonWs r2) = some (v, r3))
    (hbr : skipJsonWs r3 = '\x7d' :: rest) :
    parseMembers (f + 1) ('"' :: r) = some (.cons k v .nil, rest) := by
  simp only [parseMembers, hk, hc, hpv, hbr]

/-- One member, a comma, and further members. -/
theorem parseMembers_cons_more (f : Nat) (r k r1 r2 r3 r4 r5 : List Char)
    (v : JVal) (ms : JMembers)
    (hk : parseStringBody (r.length + 1) r = some (k, r1))
    (hc : skipJsonWs r1 = ':' :: r2)
    (hpv : parseVal f (skipJsonWs r2) = some (v, r3))
    (hcm : skipJsonWs r3 = ',' :: r4)
    (hpm : parseMembers f (skipJsonWs r4) = some (ms, r5)) :
    parseMembers (f + 1) ('"' :: r) = some (.cons k v ms, r5) := by
  simp only [parseMembers, hk, hc, hpv, hcm, hpm]

/-- The serialization of a nonempty element list starts like the
serialization of its first value. -/
theorem serElems_cons_head (v : JVal) (es : JElems) (hwv : wfVal v = true) :
    ∃ c t, serElems (JElems.cons v es) = c :: t ∧ isJsonWs c = false ∧
      c ≠ ']' := by
  obtain ⟨c, t, hs, hws, hne⟩ := serialize_head v hwv
  cases es with
  | nil => exact ⟨c, t, by simp [serElems, hs], hws, hne⟩
  | cons a2 b2 =>
    exact ⟨c, t ++ ',' :: serElems (.cons a2 b2), by simp [serElems, hs],
      hws, hne⟩

/-- The serialization of a nonempty member list starts with a quote. -/
theorem serMembers_cons_head (k : List Char) (v : JVal) (ms : JMembers) :
    ∃ R, serMembers (JMembers.cons k v ms) = '"' :: R := by
  cases ms with
  | nil =>
    exact ⟨(k.flatMap escChar ++ ['"']) ++ ':' :: serialize v,
      by simp [serMembers, serStr]⟩
  | cons k2 a2 b2 =>
    exact ⟨(k.flatMap escChar ++ ['"']) ++
      ':' :: (serialize v ++ ',' :: serMembers (.cons k2 a2 b2)),
      by simp [serMembers, serStr]⟩

/-- No whitespace to skip in front of a serialized value. -/
theorem skip_serialize_append (v : JVal) (X : List Char)
    (hwv : wfVal v = true) :
    skipJsonWs (serialize v ++ X) = serialize v ++ X := by
  obtain ⟨c, t, hs, hws, _⟩ := serialize_head v hwv
  rw [hs, List.cons_append]
  exact skipJsonWs_cons _ _ hws

/-- No whitespace to skip in front of a serialized element list. -/
theorem skip_serElems_append (v : JVal) (es : JElems) (X : List Char)
    (hwv : wfVal v = true) :
    skipJsonWs (serElems (JElems.cons v es) ++ X) =
      serElems (JElems.cons v es) ++ X := by
  obtain ⟨c, t, hs, hws, _⟩ := serElems_cons_head v es hwv
  rw [hs, List.cons_append]
  exact skipJsonWs_cons _ _ hws

/-- No whitespace to skip in front of a serialized member list. -/
theorem skip_serMembers_append (k : List Char) (v : JVal) (ms : JMembers)
    (X : List Char) :
    skipJsonWs (serMembers (JMembers.cons k v ms) ++ X) =
      serMembers (JMembers.cons k v ms) ++ X := by
  obtain ⟨R, hR⟩ := serMembers_cons_head k v ms
  rw [hR, List.cons_append]
  exact skipJsonWs_cons _ _ (by decide)

/-- Re-parsing a serialized well-formed value returns the value and
leaves exactly the appended rest, for any rest whose head cannot extend a
number token.  Fuel is bounded by the node count. -/
theorem parse_serialize (fuel : Nat) :
    (∀ v rest, wfVal v = true → NonNumHead rest → jsizeVal v ≤ fuel →
      parseVal fuel (serialize v ++ rest) = some (v, rest)) ∧
    (∀ es rest, wfElems es = true → es ≠ JElems.nil → jsizeElems es ≤ fuel →
      parseElems fuel (serElems es ++ ']' :: rest) = some (es, rest)) ∧
    (∀ ms rest, wfMembers ms = true → ms ≠ JMembers.nil →
      jsizeMembers ms ≤ fuel →
      parseMembers fuel (serMembers ms ++ '\x7d' :: rest) = some (ms, rest)) := by
  induction fuel with
  | zero =>
    refine ⟨?_, ?_, ?_⟩
    · intro v rest _ _ hsz
      exact absurd hsz (by have := jsizeVal_pos v; omega)
    · intro es rest _ hne hsz
      cases es with
      | nil => exact absurd rfl hne
      | cons a b => exact absurd hsz (by have := jsizeElems_pos a b; omega)
    · intro ms rest _ hne hsz
      cases ms with
      | nil => exact absurd rfl hne
      | cons k a b =>
        exact absurd hsz (by have := jsizeMembers_pos k a b; omega)
  | succ f ih =>
    refine ⟨?_, ?_, ?_⟩
    · intro v rest hwf hnn hsz
      cases v with
      | jnull => rfl
      | jbool b => cases b <;> rfl
      | jnum lex =>
        simp only [wfVal, decide_eq_true_eq] at hwf
        obtain ⟨c, t, heq, hc⟩ := lexNumber_head lex lex [] hwf
        subst heq
        have hres : lexNumber (c :: (t ++ rest)) = some (c :: t, rest) := by
          have := lexNumber_restart (c :: t) rest hwf hnn
          simpa using this
        rcases hc with rfl | hd
        · show parseVal (f + 1) ('-' :: (t ++ rest)) =
            some (JVal.jnum ('-' :: t), rest)
          have h0 : parseVal (f + 1) ('-' :: (t ++ rest)) =
              (lexNumber ('-' :: (t ++ rest))).map fun p =>
                (JVal.jnum p.1, p.2) := rfl
          rw [h0, hres]
          rfl
        · obtain ⟨hn1, hn2, hn3, hn4, hn5, hn6, _, _⟩ := digitC_facts c hd
          show parseVal (f + 1) (c :: (t ++ rest)) =
            some (JVal.jnum (c :: t), rest)
          simp only [parseVal]
          rw [if_neg hn1, if_neg hn2, if_neg hn3, if_neg hn4, if_neg hn5,
            if_neg hn6, hres]
          rfl
      | jstr s =>
        have hser : serialize (JVal.jstr s) ++ rest =
            '"' :: (s.flatMap escChar ++ '"' :: rest) := by
          simp [serialize, serStr]
        have hlen : s.length < (s.flatMap escChar ++ '"' :: rest).length + 1 := by
          have := flatMap_escChar_len s
          simp only [List.length_append, List.length_cons]
          omega
        rw [hser, parseVal_quote, parseStringBody_escape s rest _ hlen]
        rfl
      | jarr es =>
        cases es with
        | nil => rfl
        | cons a b =>
          simp only [wfVal] at hwf
          have hwfE := hwf
          simp only [wfElems, Bool.and_eq_true] at hwf
          obtain ⟨hwa, hwb⟩ := hwf
          obtain ⟨c, t, hEeq, hws, hcne⟩ := serElems_cons_head a b hwa
          have hser : serialize (JVal.jarr (.cons a b)) ++ rest =
              '[' :: (serElems (.cons a b) ++ ']' :: rest) := by
            simp [serialize]
          have hcons : serElems (JElems.cons a b) ++ ']' :: rest =
              c :: (t ++ ']' :: rest) := by
            rw [hEeq]; simp
          have hskip : skipJsonWs (serElems (JElems.cons a b) ++ ']' :: rest) =
              c :: (t ++ ']' :: rest) := by
            rw [hcons]
            exact skipJsonWs_cons _ _ hws
          have hsz2 : jsizeElems (JElems.cons a b) ≤ f := by
            simp only [jsizeVal] at hsz
            omega
          have hpe := ih.2.1 (JElems.cons a b) rest hwfE
            (by intro h; cases h) hsz2
          rw [hser, parseVal_lbrack_elems f _ _ _ hskip hcne, ← hcons, hpe]
          rfl
      | jobj ms =>
        cases ms with
        | nil => rfl
        | cons k a b =>
          simp only [wfVal] at hwf
          have hwfM := hwf
          obtain ⟨R, hR⟩ := serMembers_cons_head k a b
          have hser : serialize (JVal.jobj (.cons k a b)) ++ rest =
              '\x7b' :: (serMembers (.cons k a b) ++ '\x7d' :: rest) := by
            simp [serialize]
          have hcons : serMembers (JMembers.cons k a b) ++ '\x7d' :: rest =
              '"' :: (R ++ '\x7d' :: rest) := by
            rw [hR]; simp
          have hskip :
              skipJsonWs (serMembers (JMembers.cons k a b) ++ '\x7d' :: rest) =
              '"' :: (R ++ '\x7d' :: rest) := by
            rw [hcons]
            exact skipJsonWs_cons _ _ (by decide)
          have hsz2 : jsizeMembers (JMembers.cons k a b) ≤ f := by
            simp only [jsizeVal] at hsz
            omega
          have hpm := ih.2.2 (JMembers.cons k a b) rest hwfM
            (by intro h; cases h) hsz2
          rw [hser, parseVal_lbrace_members f _ _ _ hskip (by decide),
            ← hcons, hpm]
          rfl
    · intro es rest hwf hne hsz
      cases es with
      | nil => exact absurd rfl hne
      | cons v es2 =>
        simp only [wfElems, Bool.and_eq_true] at hwf
        obtain ⟨hwv, hwes2⟩ := hwf
        cases es2 with
        | nil =>
          have hsz1 : jsizeVal v ≤ f := by
            simp only [jsizeElems] at hsz
            omega
          have hpv := ih.1 v (']' :: rest) hwv
            (nonNumHead_of _ _ (by decide) (by decide) (by decide) (by decide))
            hsz1
          have hser : serElems (JElems.cons v .nil) ++ ']' :: rest =
              serialize v ++ ']' :: rest := by
            simp [serElems]
          rw [hser]
          exact parseElems_cons_last f _ _ _ _ hpv rfl
        | cons v2 es3 =>
          have hwv2 : wfVal v2 = true := by
            simp only [wfElems, Bool.and_eq_true] at hwes2
            exact hwes2.1
          have hsz1 : jsizeVal v ≤ f ∧ jsizeElems (JElems.cons v2 es3) ≤ f := by
            simp only [jsizeElems] at hsz ⊢
            have := jsizeVal_pos v
            have := jsizeVal_pos v2
            omega
          have hpv := ih.1 v
            (',' :: (serElems (JElems.cons v2 es3) ++ ']' :: rest)) hwv
            (nonNumHead_of _ _ (by decide) (by decide) (by decide) (by decide))
            hsz1.1
          have hser : serElems (JElems.cons v (JElems.cons v2 es3)) ++
              ']' :: rest =
              serialize v ++
                ',' :: (serElems (JElems.cons v2 es3) ++ ']' :: rest) := by
            simp [serElems]
          have hskipX : skipJsonWs (serElems (JElems.cons v2 es3) ++
              ']' :: rest) = serElems (JElems.cons v2 es3) ++ ']' :: rest :=
            skip_serElems_append v2 es3 _ hwv2
          have hpe := ih.2.1 (JElems.cons v2 es3) rest hwes2
            (by intro h; cases h) hsz1.2
          rw [hser]
          refine parseElems_cons_more f _ _ _ _ _ _ hpv rfl ?_
          rw [hskipX]
          exact hpe
    · intro ms rest hwf hne hsz
      cases ms with
      | nil => exact absurd rfl hne
      | cons k v ms2 =>
        simp only [wfMembers, Bool.and_eq_true] at hwf
        obtain ⟨hwv, hwms2⟩ := hwf
        cases ms2 with
        | nil =>
          have hsz1 : jsizeVal v ≤ f := by
            simp only [jsizeMembers] at hsz
            omega
          have hser : serMembers (JMembers.cons k v .nil) ++ '\x7d' :: rest =
              '"' :: (k.flatMap escChar ++
                '"' :: (':' :: (serialize v ++ '\x7d' :: rest))) := by
            simp [serMembers, serStr]
          have hk : parseStringBody
              ((k.flatMap escChar ++
                '"' :: (':' :: (serialize v ++ '\x7d' :: rest))).length + 1)
              (k.flatMap escChar ++
                '"' :: (':' :: (serialize v ++ '\x7d' :: rest))) =
              some (k, ':' :: (serialize v ++ '\x7d' :: rest)) :=
            parseStringBody_escape k _ _
              (by have := flatMap_escChar_len k
                  simp only [List.length_append, List.length_cons]
                  omega)
          have hpv : parseVal f
              (skipJsonWs (serialize v ++ '\x7d' :: rest)) =
              some (v, '\x7d' :: rest) := by
            rw [skip_serialize_append v _ hwv]
            exact ih.1 v ('\x7d' :: rest) hwv
              (nonNumHead_of _ _ (by decide) (by decide) (by decide)
                (by decide)) hsz1
          rw [hser]
          exact parseMembers_cons_last f _ _ _ _ _ _ _ hk rfl hpv rfl
        | cons k2 v2 ms3 =>
          have hsz1 : jsizeVal v ≤ f ∧
              jsizeMembers (JMembers.cons k2 v2 ms3) ≤ f := by
            simp only [jsizeMembers] at hsz ⊢
            have := jsizeVal_pos v
            have := jsizeVal_pos v2
            omega
          have hser : serMembers (JMembers.cons k v (JMembers.cons k2 v2 ms3))
              ++ '\x7d' :: rest =
              '"' :: (k.flatMap escChar ++
                '"' :: (':' :: (serialize v ++
                  ',' :: (serMembers (JMembers.cons k2 v2 ms3) ++
                    '\x7d' :: rest)))) := by
            simp [serMembers, serStr]
          have hk : parseStringBody
              ((k.flatMap escChar ++
                '"' :: (':' :: (serialize v ++
                  ',' :: (serMembers (JMembers.cons k2 v2 ms3) ++
                    '\x7d' :: rest)))).length + 1)
              (k.flatMap escChar ++
                '"' :: (':' :: (serialize v ++
                  ',' :: (serMembers (JMembers.cons k2 v2 ms3) ++
                    '\x7d' :: rest)))) =
              some (k, ':' :: (serialize v ++
                ',' :: (serMembers (JMembers.cons k2 v2 ms3) ++
                  '\x7d' :: rest))) :=
            parseStringBody_escape k _ _
              (by have := flatMap_escChar_len k
                  simp only [List.length_append, List.length_cons]
                  omega)
          have hpv : parseVal f
              (skipJsonWs (serialize v ++
                ',' :: (serMembers (JMembers.cons k2 v2 ms3) ++
                  '\x7d' :: rest))) =
              some (v, ',' :: (serMembers (JMembers.cons k2 v2 ms3) ++
                '\x7d' :: rest)) := by
            rw [skip_serialize_append v _ hwv]
            exact ih.1 v _ hwv
              (nonNumHead_of _ _ (by decide) (by decide) (by decide)
                (by decide)) hsz1.1
          have hpm : parseMembers f
              (skipJsonWs (serMembers (JMembers.cons k2 v2 ms3) ++
                '\x7d' :: rest)) =
              some (JMembers.cons k2 v2 ms3, rest) := by
            rw [skip_serMembers_append]
            exact ih.2.2 (JMembers.cons k2 v2 ms3) rest hwms2
              (by intro h; cases h) hsz1.2
          rw [hser]
          exact parseMembers_cons_more f _ _ _ _ _ _ _ _ _ hk rfl hpv rfl hpm

/-- The node count is bounded by the serialized length (plus one for
lists), so the top-level parse fuel suffices for a serialized value. -/
theorem jsize_le_aux (n : Nat) :
    (∀ v, jsizeVal v ≤ n → wfVal v = true →
      jsizeVal v ≤ (serialize v).length) ∧
    (∀ es, jsizeElems es ≤ n → wfElems es = true →
      jsizeElems es ≤ (serElems es).length + 1) ∧
    (∀ ms, jsizeMembers ms ≤ n → wfMembers ms = true →
      jsizeMembers ms ≤ (serMembers ms).length + 1) := by
  induction n with
  | zero =>
    refine ⟨?_, ?_, ?_⟩
    · intro v hsz _
      exact absurd hsz (by have := jsizeVal_pos v; omega)
    · intro es hsz _
      cases es with
      | nil => simp [jsizeElems]
      | cons a b => exact absurd hsz (by have := jsizeElems_pos a b; omega)
    · intro ms hsz _
      cases ms with
      | nil => simp [jsizeMembers]
      | cons k a b =>
        exact absurd hsz (by have := jsizeMembers_pos k a b; omega)
  | succ n ih =>
    refine ⟨?_, ?_, ?_⟩
    · intro v hsz hwf
      cases v with
      | jnull => decide
      | jbool b => cases b <;> decide
      | jnum lex =>
        simp only [wfVal, decide_eq_true_eq] at hwf
        obtain ⟨c, t, heq, _⟩ := lexNumber_head lex lex [] hwf
        subst heq
        simp only [jsizeVal, serialize, List.length_cons]
        omega
      | jstr s =>
        simp only [jsizeVal, serialize, serStr, List.length_cons]
        omega
      | jarr es =>
        cases es with
        | nil => decide
        | cons a b =>
          simp only [wfVal] at hwf
          simp only [jsizeVal] at hsz ⊢
          have hb := ih.2.1 (JElems.cons a b) (by omega) hwf
          have hlen : (serialize (JVal.jarr (JElems.cons a b))).length =
              (serElems (JElems.cons a b)).length + 2 := by
            simp [serialize]
          rw [hlen]
          omega
      | jobj ms =>
        cases ms with
        | nil => decide
        | cons k a b =>
          simp only [wfVal] at hwf
          simp only [jsizeVal] at hsz ⊢
          have hb := ih.2.2 (JMembers.cons k a b) (by omega) hwf
          have hlen : (serialize (JVal.jobj (JMembers.cons k a b))).length =
              (serMembers (JMembers.cons k a b)).length + 2 := by
            simp [serialize]
          rw [hlen]
          omega
    · intro es hsz hwf
      cases es with
      | nil => simp [jsizeElems]
      | cons v es2 =>
        simp only [wfElems, Bool.and_eq_true] at hwf
        obtain ⟨hwv, hwes2⟩ := hwf
        simp only [jsizeElems] at hsz ⊢
        have hv := ih.1 v (by have := jsizeVal_pos v; omega) hwv
        cases es2 with
        | nil =>
          have hlen : serElems (JElems.cons v .nil) = serialize v := by
            simp [serElems]
          rw [hlen]
          simp only [jsizeElems]
          omega
        | cons v2 es3 =>
          have he := ih.2.1 (JElems.cons v2 es3)
            (by have := jsizeVal_pos v; omega) hwes2
          have hlen : (serElems (JElems.cons v (JElems.cons v2 es3))).length =
              (serialize v).length +
                (serElems (JElems.cons v2 es3)).length + 1 := by
            simp [serElems]
            omega
          rw [hlen]
          omega
    · intro ms hsz hwf
      cases ms with
      | nil => simp [jsizeMembers]
      | cons k v ms2 =>
        simp only [wfMembers, Bool.and_eq_true] at hwf
        obtain ⟨hwv, hwms2⟩ := hwf
        simp only [jsizeMembers] at hsz ⊢
        have hv := ih.1 v (by have := jsizeVal_pos v; omega) hwv
        cases ms2 with
        | nil =>
          have hlen : (serMembers (JMembers.cons k v .nil)).length =
              (serStr k).length + (serialize v).length + 1 := by
            simp [serMembers]
            omega
          rw [hlen]
          simp only [jsizeMembers]
          omega
        | cons k2 v2 ms3 =>
          have hm := ih.2.2 (JMembers.cons k2 v2 ms3)
            (by have := jsizeVal_pos v; omega) hwms2
          have hlen : (serMembers (JMembers.cons k v
              (JMembers.cons k2 v2 ms3))).length =
              (serStr k).length + (serialize v).length +
                (serMembers (JMembers.cons k2 v2 ms3)).length + 2 := by
            simp [serMembers]
            omega
          rw [hlen]
          omega

/-- `JSON.parse` inverts `JSON.stringify` on well-formed values. -/
theorem jsonParse_serialize (j : JVal) (hwf : wfVal j = true) :
    jsonParse (serialize j) = some j := by
  have hsz : jsizeVal j ≤ (serialize j).length + 1 := by
    have := (jsize_le_aux (jsizeVal j)).1 j le_rfl hwf
    omega
  have hpv : parseVal ((serialize j).length + 1) (serialize j ++ []) =
      some (j, []) :=
    (parse_serialize _).1 j [] hwf (by intro c t h; cases h) hsz
  rw [List.append_nil] at hpv
  have hskip : skipJsonWs (serialize j) = serialize j := by
    obtain ⟨c, t, hs, hws, _⟩ := serialize_head j hwf
    rw [hs]
    exact skipJsonWs_cons _ _ hws
  simp only [jsonParse, hskip, hpv]
  rfl

/-- A string that does not contain a pattern has it as a prefix of no
suffix. -/
theorem not_prefix_of_not_contains (pat s : List Char)
    (h : containsSub pat s = false) : ∀ i, ¬(pat <+: s.drop i) := by
  intro i hp
  have hs := listIndexOf?_isSome pat s i hp
  simp only [containsSub] at h
  rw [hs] at h
  cases h

/-- The tagged-fence replace leaves a backtick-free string unchanged. -/
theorem stripTagFence_id (s : List Char)
    (h : ∀ i, ¬(tripleBacktick <+: s.drop i)) : stripTagFence s = s := by
  induction s with
  | nil => rfl
  | cons c cs ih =>
    have hcs : ∀ i, ¬(tripleBacktick <+: cs.drop i) := fun i => h (i + 1)
    rw [stripTagFence.eq_def]
    split
    · rename_i rest heq
      exact absurd (show tripleBacktick <+: (c :: cs).drop 0 from
        ⟨'j' :: 's' :: 'o' :: 'n' :: '\n' :: rest, by rw [heq]; rfl⟩) (h 0)
    · rename_i rest hguard heq
      exact absurd (show tripleBacktick <+: (c :: cs).drop 0 from
        ⟨'j' :: 's' :: 'o' :: 'n' :: rest, by rw [heq]; rfl⟩) (h 0)
    · rename_i c' cs' heq
      injection heq with h1 h2
      subst h1
      subst h2
      rw [ih hcs]
    · rename_i heq
      cases heq

/-- The bare-fence replace leaves a backtick-free string unchanged. -/
theorem stripBtFence_id (s : List Char)
    (h : ∀ i, ¬(tripleBacktick <+: s.drop i)) : stripBtFence s = s := by
  induction s with
  | nil => rfl
  | cons c cs ih =>
    have hcs : ∀ i, ¬(tripleBacktick <+: cs.drop i) := fun i => h (i + 1)
    rw [stripBtFence.eq_def]
    split
    · rename_i rest heq
      exact absurd (show tripleBacktick <+: (c :: cs).drop 0 from
        ⟨'\n' :: rest, by rw [heq]; rfl⟩) (h 0)
    · rename_i rest hguard heq
      exact absurd (show tripleBacktick <+: (c :: cs).drop 0 from
        ⟨rest, by rw [heq]; rfl⟩) (h 0)
    · rename_i c' cs' heq
      injection heq with h1 h2
      subst h1
      subst h2
      rw [ih hcs]
    · rename_i heq
      cases heq

/-- The fence stripper leaves a backtick-free string unchanged. -/
theorem stripFences_id (s : List Char)
    (h : containsSub tripleBacktick s = false) : stripFences s = s := by
  have h' := not_prefix_of_not_contains _ _ h
  rw [stripFences, stripTagFence_id s h', stripBtFence_id s h']

/-- `trim` keeps a string whose last character is not whitespace on the
right. -/
theorem trimRight_snoc (Y : List Char) (z : Char) (h : isJsWs z = false) :
    trimRight (Y ++ [z]) = Y ++ [z] := by
  simp [trimRight, List.reverse_append, List.dropWhile_cons, h]

/-- `trim` keeps a string whose head is not whitespace on the left. -/
theorem trimLeft_cons (c : Char) (r : List Char) (h : isJsWs c = false) :
    trimLeft (c :: r) = c :: r := by
  simp [trimLeft, List.dropWhile_cons, h]

/-- A looked-up field of a well-formed value is well formed. -/
theorem jsGetField_wf (v w : JVal) (k : List Char) (hwf : wfVal v = true)
    (h : jsGetField v k = some w) : wfVal w = true := by
  cases v with
  | jobj ms => exact wf_lookupLast k ms w hwf h
  | jnull => cases h
  | jbool b => cases h
  | jnum lex => cases h
  | jstr s => cases h
  | jarr es => cases h

/-- Trimming an explanation, two newlines and a brace-delimited block:
the block survives unchanged and only explanation characters and
newlines can precede it. -/
theorem jsTrim_reembed (e T : List Char)
    (he : e = [] ∨ ∃ c t, e = c :: t ∧ isJsWs c = false) :
    ∃ pre, jsTrim (e ++ '\n' :: '\n' :: ('\x7b' :: (T ++ ['\x7d']))) =
      pre ++ '\x7b' :: (T ++ ['\x7d']) ∧ ∀ c ∈ pre, c ∈ e ∨ c = '\n' := by
  have htr : trimRight (e ++ '\n' :: '\n' :: ('\x7b' :: (T ++ ['\x7d']))) =
      e ++ '\n' :: '\n' :: ('\x7b' :: (T ++ ['\x7d'])) := by
    have h1 : e ++ '\n' :: '\n' :: ('\x7b' :: (T ++ ['\x7d'])) =
        (e ++ '\n' :: '\n' :: '\x7b' :: T) ++ ['\x7d'] := by simp
    rw [h1, trimRight_snoc _ _ (by decide), ← h1]
  rcases he with rfl | ⟨c, t, rfl, hc⟩
  · refine ⟨[], ?_, by simp⟩
    simp only [jsTrim]
    rw [htr]
    simp only [List.nil_append]
    simp only [trimLeft]
    rw [List.dropWhile_cons_of_pos (by decide),
      List.dropWhile_cons_of_pos (by decide),
      List.dropWhile_cons_of_neg (by decide)]
  · refine ⟨(c :: t) ++ ['\n', '\n'], ?_, ?_⟩
    · simp only [jsTrim]
      rw [htr, List.cons_append, trimLeft_cons _ _ hc]
      simp
    · intro x hx
      rcases List.mem_append.mp hx with h1 | h1
      · exact Or.inl h1
      · right
        rcases (show x = '\n' ∨ x = '\n' by simpa using h1) with rfl | rfl <;>
          rfl

/-- Inversion of the shaper on a structured result: the explanation holds
no opening brace and is trimmed, the recommendations field is truthy and
well formed, and the summary is well formed. -/
theorem shapeResponse_some_inv (raw e : List Char) (recs tms : JVal)
    (h : shapeResponse raw = ⟨e, some recs, tms⟩) :
    (∀ c ∈ e, c ≠ '\x7b') ∧
    (e = [] ∨ ∃ c t, e = c :: t ∧ isJsWs c = false) ∧
    jsTruthy recs = true ∧ wfVal recs = true ∧ wfVal tms = true := by
  cases hm : jsonMatch0 (jsTrim raw) with
  | none =>
    rw [shapeResponse_no_match raw hm] at h
    simp only [Shaped.mk.injEq] at h
    exact absurd h.2.1 (by simp)
  | some m =>
    cases hp : jsonParse (jsTrim (stripFences m)) with
    | none =>
      rw [shapeResponse_parse_none raw m hm hp] at h
      simp only [Shaped.mk.injEq] at h
      exact absurd h.2.1 (by simp)
    | some parsed =>
      obtain ⟨p, hspan0, hm0⟩ := Option.map_eq_some'.mp hm
      have hps : (matchStartAux (jsTrim raw)).isSome = true := by
        cases hms : matchStartAux (jsTrim raw) with
        | none =>
          simp only [matchSpan, hms] at hspan0
          cases hspan0
        | some i0 => simp
      have hpat : HasPattern (jsTrim raw) := (hasPattern_iff _).mpr hps
      obtain ⟨i, k, hspan, hbr, hmin, hcl, hclmax, hik⟩ :=
        matchSpan_first_last _ hpat
      rw [hspan] at hspan0
      injection hspan0 with hp0
      subst hp0
      have hm1 : ((jsTrim raw).drop i).take (k + 1 - i) = m := hm0
      have hidx := jsonStart_eq (jsTrim raw) i k hbr hmin hik
      have hout := shapeResponse_parse_some raw i k parsed hspan hidx
        (by rw [hm1]; exact hp)
      rw [hout] at h
      simp only [Shaped.mk.injEq, Option.some.injEq] at h
      obtain ⟨he, hrecs, htms⟩ := h
      subst he
      have hwparsed : wfVal parsed = true := jsonParse_wf _ _ hp
      refine ⟨?_, ?_, ?_, ?_, ?_⟩
      · intro c hc hceq
        subst hceq
        have hc2 : '\x7b' ∈ (jsTrim raw).take i := ( jsTrim_infix _).subset hc
        obtain ⟨n, hn, hgn⟩ := List.getElem_of_mem hc2
        have hni : n < i := by
          rw [List.length_take] at hn
          omega
        have hq : (jsTrim raw)[n]? = some '\x7b' := by
          have h1 : ((jsTrim raw).take i)[n]? = some '\x7b' := by
            rw [List.getElem?_eq_getElem hn, hgn]
          rw [List.getElem?_take_of_lt hni] at h1
          exact h1
        exact hmin n hni hq
      · cases he2 : jsTrim ((jsTrim raw).take i) with
        | nil => exact Or.inl rfl
        | cons c t =>
          right
          refine ⟨c, t, rfl, ?_⟩
          exact dropWhile_head_false (show (trimRight ((jsTrim raw).take
            i)).dropWhile isJsWs = c :: t from he2)
      · rw [← hrecs]
        split
        · rename_i v hv
          split
          · rename_i htv
            exact htv
          · rfl
        · rfl
      · rw [← hrecs]
        split
        · rename_i v hv
          split
          · exact jsGetField_wf parsed v _ hwparsed hv
          · rfl
        · rfl
      · rw [← htms]
        split
        · rename_i v hv
          split
          · exact jsGetField_wf parsed v _ hwparsed hv
          · rfl
        · rfl

/-- C5 (amended): re-running the shaper on the re-embedded serialization
of a structured first result reproduces the recommendations, provided the
serialized block carries no triple backtick (a backtick-bearing block is
mangled by the fence stripper on the second run). -/
theorem reembed_idempotent (raw e : List Char) (recs tms : JVal)
    (hsh : shapeResponse raw = ⟨e, some recs, tms⟩)
    (hbt : containsSub tripleBacktick
      (serialize (.jobj (.cons ("recommendations".data) recs
        (.cons ("textMessageSummary".data) tms .nil)))) = false) :
    (shapeResponse (reembedText e recs tms)).recommendations = some recs := by
  obtain ⟨hnb, heshape, htr, hwr, hwt⟩ :=
    shapeResponse_some_inv raw e recs tms hsh
  set M : JMembers := JMembers.cons ("recommendations".data) recs
    (JMembers.cons ("textMessageSummary".data) tms JMembers.nil) with hM
  set A : List Char := serMembers M with hAdef
  set S : List Char := serialize (JVal.jobj M) with hSdef
  have hS : S = '\x7b' :: (A ++ ['\x7d']) := by
    rw [hSdef, hAdef, hM]
    rfl
  have hwJ : wfVal (JVal.jobj M) = true := by
    rw [hM]
    simp [wfVal, wfMembers, hwr, hwt]
  have hAXe : A = recsKey ++ ':' :: (serialize recs ++ ',' ::
      serMembers (JMembers.cons ("textMessageSummary".data) tms
        JMembers.nil)) := by
    rw [hAdef, hM]
    have hKey : serStr ("recommendations".data) = recsKey := rfl
    simp [serMembers, hKey]
  have hre : reembedText e recs tms =
      e ++ '\n' :: '\n' :: ('\x7b' :: (A ++ ['\x7d'])) := by
    simp only [reembedText]
    rw [← hM, ← hSdef, hS]
  obtain ⟨pre, hpre, hmem⟩ := jsTrim_reembed e A heshape
  rw [← hre] at hpre
  have h17 : recsKey.length = 17 := rfl
  have hlenA : 17 ≤ A.length := by
    rw [hAXe]
    simp only [List.length_append, List.length_cons, h17]
    omega
  set s : List Char := pre ++ '\x7b' :: (A ++ ['\x7d']) with hsd
  have hslen : s.length = pre.length + A.length + 2 := by
    rw [hsd]
    simp
    omega
  have hsbr : s[pre.length]? = some '\x7b' := by
    rw [hsd, List.getElem?_append_right (le_refl pre.length)]
    simp
  have hscl : s[pre.length + A.length + 1]? = some '\x7d' := by
    rw [hsd, List.getElem?_append_right (by omega)]
    have h1 : pre.length + A.length + 1 - pre.length = A.length + 1 := by
      omega
    rw [h1, List.getElem?_cons_succ, List.getElem?_append_right (le_refl _)]
    simp
  have hprebr : ∀ c ∈ pre, c ≠ '\x7b' := by
    intro c hc
    rcases hmem c hc with h1 | rfl
    · exact hnb c h1
    · decide
  have hkeyAt : recsKey <+: s.drop (pre.length + 1) := by
    have hdrop : s.drop (pre.length + 1) = A ++ ['\x7d'] := by
      rw [hsd]
      have h1 : pre ++ '\x7b' :: (A ++ ['\x7d']) =
          (pre ++ ['\x7b']) ++ (A ++ ['\x7d']) := by simp
      have h2 : (pre ++ ['\x7b']).length = pre.length + 1 := by simp
      rw [h1, ← h2, List.drop_left]
    rw [hdrop, hAXe]
    refine ⟨':' :: (serialize recs ++ ',' ::
      serMembers (JMembers.cons ("textMessageSummary".data) tms
        JMembers.nil)) ++ ['\x7d'], by simp⟩
  have hpat : HasPattern s :=
    ⟨pre.length, pre.length + 1, pre.length + A.length + 1, hsbr,
      by omega, hkeyAt, by omega, hscl⟩
  obtain ⟨i, k, hspan, hbr, hmin, hcl, hclmax, hik⟩ :=
    matchSpan_first_last s hpat
  have hieq : i = pre.length := by
    by_contra hne
    rcases Nat.lt_or_ge i pre.length with hlt | hge
    · have h1 : s[i]? = pre[i]? := by
        rw [hsd, List.getElem?_append_left hlt]
      rw [h1] at hbr
      exact hprebr _ (List.getElem?_mem hbr) rfl
    · exact hmin pre.length (by omega) hsbr
  have hkeq : k = pre.length + A.length + 1 := by
    have hk1 : k < s.length := by
      by_contra hge
      rw [List.getElem?_eq_none (by omega)] at hcl
      cases hcl
    have hk2 : ¬k < pre.length + A.length + 1 := by
      intro hlt
      exact hclmax (pre.length + A.length + 1) hlt hscl
    omega
  subst hieq
  subst hkeq
  have hmstr : (s.drop pre.length).take
      (pre.length + A.length + 1 + 1 - pre.length) =
      '\x7b' :: (A ++ ['\x7d']) := by
    have hd : s.drop pre.length = '\x7b' :: (A ++ ['\x7d']) := by
      rw [hsd]
      exact List.drop_left pre ('\x7b' :: (A ++ ['\x7d']))
    rw [hd]
    have hlen2 : pre.length + A.length + 1 + 1 - pre.length =
        ('\x7b' :: (A ++ ['\x7d'])).length := by
      simp
      omega
    rw [hlen2, List.take_length]
  have hbt' : containsSub tripleBacktick ('\x7b' :: (A ++ ['\x7d'])) =
      false := by
    rw [← hS]
    exact hbt
  have hparse : jsonParse (jsTrim (stripFences ('\x7b' :: (A ++ ['\x7d'])))) =
      some (JVal.jobj M) := by
    rw [stripFences_id _ hbt']
    have hjt : jsTrim ('\x7b' :: (A ++ ['\x7d'])) =
        '\x7b' :: (A ++ ['\x7d']) := by
      simp only [jsTrim]
      have h1 : '\x7b' :: (A ++ ['\x7d']) = ('\x7b' :: A) ++ ['\x7d'] := by
        simp
      rw [h1, trimRight_snoc _ _ (by decide), ← h1]
      exact trimLeft_cons _ _ (by decide)
    rw [hjt, ← hS]
    exact jsonParse_serialize (JVal.jobj M) hwJ
  have hidx := jsonStart_eq s pre.length (pre.length + A.length + 1) hsbr
    hmin (by omega)
  have hspan2 : matchSpan (jsTrim (reembedText e recs tms)) =
      some (pre.length, pre.length + A.length + 1) := by
    rw [hpre]
    exact hspan
  have hidx2 : listIndexOf?
      (((jsTrim (reembedText e recs tms)).drop pre.length).take
        (pre.length + A.length + 1 + 1 - pre.length))
      (jsTrim (reembedText e recs tms)) = some pre.length := by
    rw [hpre]
    exact hidx
  have hp2 : jsonParse (jsTrim (stripFences
      (((jsTrim (reembedText e recs tms)).drop pre.length).take
        (pre.length + A.length + 1 + 1 - pre.length)))) =
      some (JVal.jobj M) := by
    rw [hpre, hmstr]
    exact hparse
  have hout := shapeResponse_parse_some (reembedText e recs tms) pre.length
    (pre.length + A.length + 1) (JVal.jobj M) hspan2 hidx2 hp2
  rw [hout]
  have hget : jsGetField (JVal.jobj M) ("recommendations".data) =
      some recs := by
    rw [hM]
    rfl
  simp only [hget, htr]
  simp [htr]

set_option maxRecDepth 100000 in
/-- Witness: a concrete first run and its backtick-free re-embedding, on
which the second run reproduces the recommendations. -/
theorem reembed_idempotent_witness :
    (shapeResponse (reembedText ("OK.".data)
      (.jarr (.cons (.jnum ['1']) .nil)) (.jstr ['s']))).recommendations =
      some (.jarr (.cons (.jnum ['1']) .nil)) :=
  reembed_idempotent
    ("OK.\n\n\x7b\"recommendations\":[1],\"textMessageSummary\":\"s\"\x7d".data)
    ("OK.".data) (.jarr (.cons (.jnum ['1']) .nil)) (.jstr ['s'])
    (by rfl) (by rfl)

set_option maxRecDepth 100000 in
/-- C5 counterexample: on a reply whose one recommendation string spells
three backticks through escapes, the first run extracts that string, but
re-running the shaper on the re-embedded serialization loses it: the
serialized block carries a literal code fence, which the second run's
fence stripper deletes before parsing. -/
theorem reembed_idempotent_cex :
    shapeResponse cex5Text =
      ⟨[], some (.jarr (.cons (.jstr tripleBacktick) .nil)), .jstr ['s']⟩ ∧
    (shapeResponse (reembedText []
      (.jarr (.cons (.jstr tripleBacktick) .nil))
      (.jstr ['s']))).recommendations ≠
      some (.jarr (.cons (.jstr tripleBacktick) .nil)) := by
  refine ⟨rfl, ?_⟩
  have h : (shapeResponse (reembedText []
      (.jarr (.cons (.jstr tripleBacktick) .nil))
      (.jstr ['s']))).recommendations =
      some (.jarr (.cons (.jstr []) .nil)) := rfl
  rw [h]
  decide
